import Mathlib

/-!
HASH_MAP.h : an open-addressing map with linear probing.

Shallow embedding of the class template `HASH_MAP<key, Value>` of `src/HASH_MAP.h`.

* The slot array `buckets` is a function from slot index to `HASH_NODE`; only the
  indices below `_bucket_count` (the slots before `end()`) are ever read or written.
* The C++ `int` fields `_bucket_count` and `array_size` are natural numbers; signed
  overflow (undefined in C++) is outside the model.
* `key()` and `Value()` are `default`; `std::hash<key>` is the parameter `hash`.
* Every probe loop of the source is an unbounded `for`/`goto` loop.  It is embedded
  with an explicit step budget (`probe`, `countLoop`); the operations run it with
  a budget of `_bucket_count` steps and `none` stands for a scan that never returns.
  `probe_budget_exact` and `countLoop_budget_exact` show that a larger budget never
  changes the outcome, so `none` is exactly non-termination of the source loop.
* The recursion `return this->at(k)` of `at` and `operator[]` is embedded with an explicit
  depth bound (`atFuel`).
* `load_factor() > max_load_factor()` compares `array_size / (double)_bucket_count`
  with `0.75`; for `int` operands that comparison holds exactly when
  `3 * _bucket_count < 4 * array_size`, which is how it is embedded.
* `reserve` is not embedded: it uses the `double` value `i / _max_load_factor + 1` as the
  length of an array `new` and as a pointer subscript (lines 532-533), which is ill-formed
  when the member is instantiated, so no call of it compiles and it has no behaviour.
* Move construction and move assignment return the pair of the destination and the state in
  which the source is left.
-/

set_option linter.unusedSectionVars false
set_option linter.unusedVariables false

namespace HashMap

/-- The macro `_max_bucket_count` (HASH_MAP.h, line 19). -/
def _max_bucket_count : Nat := 10000000

/-- The struct `HASH_NODE`: one slot, a key `first` and a value `second`. -/
structure HASH_NODE (K V : Type) where
  first : K
  second : V

/-- The data members of `HASH_MAP`: `_bucket_count`, `array_size` and `buckets`. -/
structure HASH_MAP (K V : Type) where
  _bucket_count : Nat
  array_size : Nat
  buckets : Nat → HASH_NODE K V

variable {K V : Type} [DecidableEq K] [Inhabited K] [Inhabited V]

/-- The node built by `HASH_NODE()`: `first = key()`, `second = Value()`. -/
def HASH_NODE.blank : HASH_NODE K V := ⟨default, default⟩

/-- The array produced by `new HASH_NODE[n]`: every slot is a blank node. -/
def newArray : Nat → HASH_NODE K V := fun _ => HASH_NODE.blank

/-- The default constructor: `_bucket_count = 100`, `array_size = 0`, fresh array. -/
def HASH_MAP.new : HASH_MAP K V := ⟨100, 0, newArray⟩

/-- The method `size()`. -/
def HASH_MAP.size (m : HASH_MAP K V) : Nat := m.array_size

/-- The method `bucket_count()`. -/
def HASH_MAP.bucket_count (m : HASH_MAP K V) : Nat := m._bucket_count

/-- The method `empty()`: `!array_size`. -/
def HASH_MAP.empty (m : HASH_MAP K V) : Bool := decide (m.array_size = 0)

/-- The method `getStart`: `std::hash<key>{}(k) % _bucket_count`. -/
def getStart (hash : K → Nat) (m : HASH_MAP K V) (k : K) : Nat := hash k % m._bucket_count

/-- The test `load_factor() > max_load_factor()`, i.e. `array_size / _bucket_count > 0.75`. -/
def loadExceeded (m : HASH_MAP K V) : Bool := decide (3 * m._bucket_count < 4 * m.array_size)

/-- One pointer advance of a probe loop: `ptr++`, and back to `begin()` on reaching `end()`. -/
def next (cap i : Nat) : Nat := if i + 1 < cap then i + 1 else 0

/-- The shared shape of the probe loops: starting at slot `i`, walk forward (wrapping)
until a slot satisfies `stop`; the first argument bounds the number of slots examined. -/
def probe (stop : HASH_NODE K V → Bool) (b : Nat → HASH_NODE K V) (cap : Nat) :
    Nat → Nat → Option Nat
  | 0, _ => none
  | fuel + 1, i => if stop (b i) then some i else probe stop b cap fuel (next cap i)

/-- Loop test of `insert` and `rehash`: the slot is empty. -/
def stopEmpty (nd : HASH_NODE K V) : Bool := decide (nd.first = default)

/-- Loop test of `contains`, `find`, `at` and `insert_or_assign`: empty or equal key. -/
def stopEmptyOrKey (k : K) (nd : HASH_NODE K V) : Bool :=
  decide (nd.first = default) || decide (nd.first = k)

/-- The loop of `count`: return `found` at the first empty slot, `found++` on an equal key. -/
def countLoop (k : K) (b : Nat → HASH_NODE K V) (cap : Nat) : Nat → Nat → Nat → Option Nat
  | 0, _, _ => none
  | fuel + 1, i, found =>
    if (b i).first = default then some found
    else countLoop k b cap fuel (next cap i) (if (b i).first = k then found + 1 else found)

/-- The method `count(k)`. -/
def count (hash : K → Nat) (m : HASH_MAP K V) (k : K) : Option Nat :=
  countLoop k m.buckets m._bucket_count m._bucket_count (getStart hash m k) 0

/-- The method `contains(k)`: `false` at an empty slot, `true` at an equal key. -/
def contains (hash : K → Nat) (m : HASH_MAP K V) (k : K) : Option Bool :=
  (probe (stopEmptyOrKey k) m.buckets m._bucket_count m._bucket_count (getStart hash m k)).map
    (fun j => decide ((m.buckets j).first ≠ default))

/-- The method `find(k)`: the slot index found, `end()` being the index `_bucket_count`. -/
def find (hash : K → Nat) (m : HASH_MAP K V) (k : K) : Option Nat :=
  (probe (stopEmptyOrKey k) m.buckets m._bucket_count m._bucket_count (getStart hash m k)).map
    (fun j => if (m.buckets j).first = default then m._bucket_count else j)

/-- The body of the rebuild loop of `rehash` for one old slot: an occupied old slot is written
to the first empty slot of `temp` in probe order from its start index. -/
def reinsert (hash : K → Nat) (newCap : Nat) (temp : Nat → HASH_NODE K V) (nd : HASH_NODE K V) :
    Option (Nat → HASH_NODE K V) :=
  if nd.first = default then some temp
  else (probe stopEmpty temp newCap newCap (hash nd.first % newCap)).map
    (fun j => Function.update temp j nd)

/-- The outer loop of `rehash`: old slots `0 .. n-1` in address order. -/
def rehashLoop (hash : K → Nat) (old : Nat → HASH_NODE K V) (newCap : Nat) :
    Nat → (Nat → HASH_NODE K V) → Option (Nat → HASH_NODE K V)
  | 0, temp => some temp
  | i + 1, temp => (rehashLoop hash old newCap i temp).bind
      (fun t => reinsert hash newCap t (old i))

/-- The capacity chosen by `rehash` when `_bucket_count` is not the maximum. -/
def grownCount (c : Nat) : Nat :=
  if c * 2 < _max_bucket_count then c * 2
  else if c < _max_bucket_count then _max_bucket_count
  else c

/-- The method `rehash()`. -/
def rehash (hash : K → Nat) (m : HASH_MAP K V) : Option (HASH_MAP K V) :=
  if m._bucket_count = _max_bucket_count then some m
  else
    (rehashLoop hash m.buckets (grownCount m._bucket_count) (grownCount m._bucket_count / 2)
      newArray).map
      (fun t => ⟨grownCount m._bucket_count, m.array_size, t⟩)

/-- The growth check `if (load_factor() > max_load_factor()) rehash();`. -/
def growthCheck (hash : K → Nat) (m : HASH_MAP K V) : Option (HASH_MAP K V) :=
  if loadExceeded m then rehash hash m else some m

/-- The method `insert(p)`. -/
def insert (hash : K → Nat) (m : HASH_MAP K V) (p : K × V) : Option (HASH_MAP K V) :=
  match probe stopEmpty m.buckets m._bucket_count m._bucket_count (getStart hash m p.1) with
  | none => none
  | some j =>
    growthCheck hash
      ⟨m._bucket_count, m.array_size + 1, Function.update m.buckets j ⟨p.1, p.2⟩⟩

/-- The method `insert_or_assign(p)`: the new map, the slot returned and the flag returned.
Both branches return from inside the loop, so the growth check after the loop is never run. -/
def insert_or_assign (hash : K → Nat) (m : HASH_MAP K V) (p : K × V) :
    Option (HASH_MAP K V × Nat × Bool) :=
  match probe (stopEmptyOrKey p.1) m.buckets m._bucket_count m._bucket_count
      (getStart hash m p.1) with
  | none => none
  | some j =>
    some (⟨m._bucket_count, m.array_size + 1, Function.update m.buckets j ⟨p.1, p.2⟩⟩, j,
      decide ((m.buckets j).first = default))

/-- The method `at(k)` (and `operator[]`, whose body differs only in statement order): the new
map and the index of the slot whose `second` is referenced.  The leading argument bounds the
depth of the recursive call `return this->at(k)`; by `atFuel_mono` a larger bound never
changes a result. -/
def atFuel (hash : K → Nat) : Nat → HASH_MAP K V → K → Option (HASH_MAP K V × Nat)
  | 0, _, _ => none
  | n + 1, m, k =>
    match probe (stopEmptyOrKey k) m.buckets m._bucket_count m._bucket_count
        (getStart hash m k) with
    | none => none
    | some j =>
      if (m.buckets j).first = k then some (m, j)
      else
        match growthCheck hash ⟨m._bucket_count, m.array_size + 1,
            Function.update m.buckets j ⟨k, (m.buckets j).second⟩⟩ with
        | none => none
        | some m2 => atFuel hash n m2 k

/-- The loop of the copy constructor and of copy assignment: every occupied source slot is
written straight to its start index in `temp`. -/
def copyLoop (hash : K → Nat) (src : Nat → HASH_NODE K V) (cap : Nat) :
    Nat → (Nat → HASH_NODE K V) → (Nat → HASH_NODE K V)
  | 0, temp => temp
  | j + 1, temp =>
    if (src j).first ≠ default then
      Function.update (copyLoop hash src cap j temp) (hash (src j).first % cap) (src j)
    else copyLoop hash src cap j temp

/-- Copy assignment `operator=(const HASH_MAP&)` from `H` (for `this != &H`). -/
def copyAssign (hash : K → Nat) (H : HASH_MAP K V) : HASH_MAP K V :=
  ⟨H._bucket_count, H.array_size, copyLoop hash H.buckets H._bucket_count H._bucket_count newArray⟩

/-- Some slot before `end()` is empty. -/
def HasEmpty (m : HASH_MAP K V) : Prop :=
  ∃ i, i < m._bucket_count ∧ (m.buckets i).first = default

/-- Number of slots before `end()` whose key is not the default key. -/
def occupied (b : Nat → HASH_NODE K V) (cap : Nat) : Nat :=
  (List.range cap).countP (fun i => decide ((b i).first ≠ default))

/-- Number of slots before `end()` whose key is `k`. -/
def slotsWith (b : Nat → HASH_NODE K V) (cap : Nat) (k : K) : Nat :=
  (List.range cap).countP (fun i => decide ((b i).first = k))

/-- Slot `x` is reached by the scan from `h` before any empty slot: it is `t` steps from `h`
and the slots at steps `0 .. t` are all occupied. -/
def Reachable (b : Nat → HASH_NODE K V) (cap h x : Nat) : Prop :=
  ∃ t, t < cap ∧ (h + t) % cap = x ∧ ∀ s, s ≤ t → (b ((h + s) % cap)).first ≠ default

/-- The map reached from a freshly constructed `HASH_MAP<int, int>` (identity hash) by
`insert_or_assign` of the keys `100 .. 198`: slots `0 .. 98` are occupied, slot `99` is empty,
and no growth has happened since `insert_or_assign` never runs the growth check. -/
def nearlyFull : HASH_MAP Nat Nat :=
  ⟨100, 99, fun i => if i < 99 then ⟨100 + i, 0⟩ else HASH_NODE.blank⟩

/-- Probe-chain property of a table: every occupied slot is reached from the start index of
its key before any empty slot. -/
def Chain (hash : K → Nat) (b : Nat → HASH_NODE K V) (cap : Nat) : Prop :=
  ∀ x, x < cap → (b x).first ≠ default → Reachable b cap (hash (b x).first % cap) x

/-- Slot `j` is the first slot holding `k` in probe order from `h`, with no empty slot
before it: the slot at which the scan of `find`, `contains` and `at` for `k` stops. -/
def FirstHit (b : Nat → HASH_NODE K V) (cap h : Nat) (k : K) (j : Nat) : Prop :=
  ∃ u, u < cap ∧ (h + u) % cap = j ∧ (b j).first = k ∧
    ∀ s, s < u → (b ((h + s) % cap)).first ≠ default ∧ (b ((h + s) % cap)).first ≠ k

/-- Slot `i` is the first slot in address order that holds the key it holds. -/
def FirstInAddressOrder (b : Nat → HASH_NODE K V) (i : Nat) : Prop :=
  ∀ i2, i2 < i → (b i2).first ≠ (b i).first

/-- State of the rebuild loop of `rehash` after the old slots `0 .. n-1`: the new table `t`
has the probe-chain property, holds exactly the occupied old slots seen so far (with
multiplicity), and for each key the old slot that is first in address order is the one the
scan for that key stops at. -/
def RebuildInv (hash : K → Nat) (old : Nat → HASH_NODE K V) (newCap n : Nat)
    (t : Nat → HASH_NODE K V) : Prop :=
  Chain hash t newCap ∧ occupied t newCap = occupied old n ∧
  (∀ k, k ≠ default → slotsWith t newCap k = slotsWith old n k) ∧
  (∀ i, i < n → (old i).first ≠ default → FirstInAddressOrder old i →
    ∃ j, FirstHit t newCap (hash (old i).first % newCap) (old i).first j ∧ t j = old i)

/-- The value `find(k)->second` read through the slot returned by `find(k)`. -/
def findValue (hash : K → Nat) (m : HASH_MAP K V) (k : K) : Option V :=
  (find hash m k).map (fun j => (m.buckets j).second)

/-- The map reached from a freshly constructed `HASH_MAP<int, int>` (identity hash) by
`insert((99, 1))` and `insert((99, 2))`: the second entry wraps around to slot `0`. -/
def dupWrap : HASH_MAP Nat Nat :=
  ⟨100, 2, Function.update (Function.update newArray 99 ⟨99, 1⟩) 0 ⟨99, 2⟩⟩

/-- The map reached from a freshly constructed `HASH_MAP<int, int>` (identity hash) by
`insert((7, 3))`. -/
def oneEntry : HASH_MAP Nat Nat := ⟨100, 1, Function.update newArray 7 ⟨7, 3⟩⟩

/-- A sequence of `insert` calls, in list order. -/
def insertAll (hash : K → Nat) (m : HASH_MAP K V) (ops : List (K × V)) :
    Option (HASH_MAP K V) :=
  ops.foldlM (insert hash) m

/-- Number of calls in `ops` made with key `k`. -/
def callsWith (ops : List (K × V)) (k : K) : Nat :=
  ops.countP (fun p => decide (p.1 = k))

/-- Invariant of the maps reached from a fresh map by the `insert` calls `ops` while the
capacity has only doubled: the capacity is `100 * 2^e`, the last doubling (if any) was needed,
the table has the probe-chain property, `array_size` counts the occupied slots and the calls,
the load factor is at most `0.75`, and each key is held by as many slots as calls used it. -/
def InsInv (hash : K → Nat) (ops : List (K × V)) (m : HASH_MAP K V) : Prop :=
  (∃ e, e ≤ 16 ∧ m._bucket_count = 100 * 2 ^ e) ∧
  (m._bucket_count = 100 ∨ 3 * m._bucket_count < 8 * m.array_size) ∧
  Chain hash m.buckets m._bucket_count ∧
  occupied m.buckets m._bucket_count = m.array_size ∧
  4 * m.array_size ≤ 3 * m._bucket_count ∧
  m.array_size = ops.length ∧
  ∀ k, k ≠ default → slotsWith m.buckets m._bucket_count k = callsWith ops k

/-- The map reached from a freshly constructed `HASH_MAP<int, int>` (identity hash) by
`insert((i, 0))` for `i = 1 .. 4915200`: the capacity has doubled 16 times to `6553600`,
key `i` sits in slot `i`, and the load factor is exactly `0.75`. -/
def denseMap : HASH_MAP Nat Nat :=
  ⟨6553600, 4915200, fun i => if 1 ≤ i ∧ i ≤ 4915200 then ⟨i, 0⟩ else HASH_NODE.blank⟩

/-- The table holding key `i` with value `0` in slot `i` for `i = 1 .. n`. -/
def seqTable (n : Nat) : Nat → HASH_NODE Nat Nat :=
  fun i => if 1 ≤ i ∧ i ≤ n then ⟨i, 0⟩ else HASH_NODE.blank

/-- The calls `insert((1, 0))`, ..., `insert((n, 0))`. -/
def seqOps (n : Nat) : List (Nat × Nat) := (List.range n).map (fun i => (i + 1, 0))

/-- The map reached from a freshly constructed `HASH_MAP<int, int>` (identity hash) by
`insert((i, 0))` for `i = 1 .. 75`: capacity `100`, load factor exactly `0.75`. -/
def seventyFive : HASH_MAP Nat Nat := ⟨100, 75, seqTable 75⟩

/-- The map reached from a freshly constructed `HASH_MAP<int, int>` (identity hash) by
`insert((1, 5))` and `insert((101, 6))`: both keys have start index `1`, the second entry
is probed to slot `2`. -/
def twoHome : HASH_MAP Nat Nat :=
  ⟨100, 2, Function.update (Function.update newArray 1 ⟨1, 5⟩) 2 ⟨101, 6⟩⟩

/-- A sequence of `insert_or_assign` calls, in list order, keeping the map of each call. -/
def assignAll (hash : K → Nat) (m : HASH_MAP K V) (ops : List (K × V)) :
    Option (HASH_MAP K V) :=
  ops.foldlM (fun m2 p => (insert_or_assign hash m2 p).map (fun r => r.1)) m

/-- The table holding key `100 + i` with value `0` in slot `i` for `i = 0 .. n-1`. -/
def shiftTable (n : Nat) : Nat → HASH_NODE Nat Nat :=
  fun i => if i < n then ⟨100 + i, 0⟩ else HASH_NODE.blank

/-- The calls `insert_or_assign((100, 0))`, ..., `insert_or_assign((100 + n - 1, 0))`. -/
def shiftOps (n : Nat) : List (Nat × Nat) := (List.range n).map (fun i => (100 + i, 0))

/-- The slots examined by a probe loop with loop test `stop`, in the order examined. -/
def visited (stop : HASH_NODE K V → Bool) (b : Nat → HASH_NODE K V) (cap : Nat) :
    Nat → Nat → List Nat
  | 0, _ => []
  | fuel + 1, i => if stop (b i) then [i] else i :: visited stop b cap fuel (next cap i)

/-- The slots examined by the loop of `count`, in the order examined. -/
def countVisited (b : Nat → HASH_NODE K V) (cap : Nat) : Nat → Nat → List Nat
  | 0, _ => []
  | fuel + 1, i =>
    if (b i).first = default then [i] else i :: countVisited b cap fuel (next cap i)

/-- The first `n` slot indices in probe order from `h`: `(h + i) mod C` for `i < n`. -/
def offsets (h C n : Nat) : List Nat := (List.range n).map (fun s => (h + s) % C)

/-- The map reached from a freshly constructed `HASH_MAP<int, int>` (identity hash) by
`insert_or_assign((100 + i, 0))` for `i = 0 .. 99`: all 100 slots are occupied. -/
def fullMap : HASH_MAP Nat Nat := ⟨100, 100, shiftTable 100⟩

/-- The move constructor `HASH_MAP(HASH_MAP&& H)`: the constructed map and the state in which
`H` is left (`_bucket_count = 100`, `array_size = 0`, a fresh array of 100 nodes). -/
def moveConstruct (H : HASH_MAP K V) : HASH_MAP K V × HASH_MAP K V :=
  (⟨H._bucket_count, H.array_size, H.buckets⟩, ⟨100, 0, newArray⟩)

/-- Move assignment `operator=(HASH_MAP&& H)` to `self` (for `this != &H`): the new `*this`
and the state in which `H` is left. -/
def moveAssign (self H : HASH_MAP K V) : HASH_MAP K V × HASH_MAP K V :=
  (⟨H._bucket_count, H.array_size, H.buckets⟩, ⟨100, 0, newArray⟩)

/-- The occupied slots of a table before `end()`, in address order. -/
def entries (b : Nat → HASH_NODE K V) (cap : Nat) : List (HASH_NODE K V) :=
  ((List.range cap).map b).filter (fun nd => decide (nd.first ≠ default))

/-- Table `t2` is table `t` with the node `nd` written to the first empty slot in probe order
from `hash(key) mod cap`. -/
def PlacedFirstEmpty (hash : K → Nat) (cap : Nat) (t : Nat → HASH_NODE K V)
    (nd : HASH_NODE K V) (t2 : Nat → HASH_NODE K V) : Prop :=
  ∃ u, u < cap ∧ (t ((hash nd.first % cap + u) % cap)).first = default ∧
    (∀ s, s < u → (t ((hash nd.first % cap + s) % cap)).first ≠ default) ∧
    t2 = Function.update t ((hash nd.first % cap + u) % cap) nd

/-- The rebuild of a table as the description of rehash words it: starting from a new array
of `cap` empty slots, the old slots `0 .. n-1` are taken in address order; an empty old slot
is skipped and an occupied one is placed in the first empty slot in probe order from
`hash(key) mod cap`. -/
inductive RebuiltFrom (hash : K → Nat) (old : Nat → HASH_NODE K V) (cap : Nat) :
    Nat → (Nat → HASH_NODE K V) → Prop
  | start : RebuiltFrom hash old cap 0 newArray
  | skip (n : Nat) (t : Nat → HASH_NODE K V) : RebuiltFrom hash old cap n t →
      (old n).first = default → RebuiltFrom hash old cap (n + 1) t
  | place (n : Nat) (t t2 : Nat → HASH_NODE K V) : RebuiltFrom hash old cap n t →
      (old n).first ≠ default → PlacedFirstEmpty hash cap t (old n) t2 →
      RebuiltFrom hash old cap (n + 1) t2

/-- The maps reachable from a freshly constructed map by `insert`, `insert_or_assign` and
`at`/`operator[]` calls with non-default keys (together with the rehashes these calls
trigger), as long as the capacity stays below the maximum. -/
inductive Reach (hash : K → Nat) : HASH_MAP K V → Prop
  | fresh : Reach hash HASH_MAP.new
  | byInsert (m m2 : HASH_MAP K V) (p : K × V) : Reach hash m → p.1 ≠ default →
      insert hash m p = some m2 → m2._bucket_count < _max_bucket_count → Reach hash m2
  | byInsertOrAssign (m : HASH_MAP K V) (p : K × V) (r : HASH_MAP K V × Nat × Bool) :
      Reach hash m → p.1 ≠ default → insert_or_assign hash m p = some r →
      r.1._bucket_count < _max_bucket_count → Reach hash r.1
  | byAt (m : HASH_MAP K V) (k : K) (n : Nat) (r : HASH_MAP K V × Nat) :
      Reach hash m → k ≠ default → atFuel hash n m k = some r →
      r.1._bucket_count < _max_bucket_count → Reach hash r.1

/-! ## The probe loop -/

theorem next_lt {cap : Nat} (hc : 0 < cap) (i : Nat) : next cap i < cap := by
  unfold next; split <;> omega

theorem next_eq_mod {cap i : Nat} (hi : i < cap) : next cap i = (i + 1) % cap := by
  unfold next
  split
  · rename_i h; rw [Nat.mod_eq_of_lt h]
  · rename_i h
    have : i + 1 = cap := by omega
    rw [this, Nat.mod_self]

theorem off_succ {cap i : Nat} (hi : i < cap) (t : Nat) :
    (next cap i + t) % cap = (i + (t + 1)) % cap := by
  rw [next_eq_mod hi, Nat.mod_add_mod]; congr 1; omega

theorem off_inv {cap i x : Nat} (hi : i < cap) (hx : x < cap) :
    (i + (x + cap - i) % cap) % cap = x := by
  rw [Nat.add_mod_mod]
  have : i + (x + cap - i) = x + cap := by omega
  rw [this, Nat.add_mod_right, Nat.mod_eq_of_lt hx]

theorem probe_now (stop : HASH_NODE K V → Bool) (b : Nat → HASH_NODE K V) (cap fuel i : Nat)
    (hf : 0 < fuel) (h : stop (b i) = true) : probe stop b cap fuel i = some i := by
  obtain ⟨f, rfl⟩ : ∃ f, fuel = f + 1 := ⟨fuel - 1, by omega⟩
  simp only [probe, h, if_true]

theorem probe_eq_some (stop : HASH_NODE K V → Bool) (b : Nat → HASH_NODE K V) {cap : Nat} :
    ∀ (fuel i j : Nat), i < cap → probe stop b cap fuel i = some j →
      ∃ t, t < fuel ∧ j = (i + t) % cap ∧ stop (b j) = true ∧
        ∀ s, s < t → stop (b ((i + s) % cap)) = false := by
  intro fuel
  induction fuel with
  | zero => intro i j _ h; simp [probe] at h
  | succ n ih =>
    intro i j hi h
    simp only [probe] at h
    by_cases hs : stop (b i) = true
    · rw [if_pos hs] at h
      cases h
      exact ⟨0, by omega, by simp [Nat.mod_eq_of_lt hi], hs, by intro s hs0; omega⟩
    · rw [if_neg hs] at h
      obtain ⟨t, ht, hj, hstop, hbefore⟩ := ih (next cap i) j (next_lt (by omega) i) h
      refine ⟨t + 1, by omega, ?_, hstop, ?_⟩
      · rw [hj, off_succ hi]
      · intro s hs1
        cases s with
        | zero => simpa [Nat.mod_eq_of_lt hi] using hs
        | succ s => rw [← off_succ hi]; exact hbefore s (by omega)

theorem probe_of_first (stop : HASH_NODE K V → Bool) (b : Nat → HASH_NODE K V) {cap : Nat} :
    ∀ (fuel i t : Nat), i < cap → t < fuel → stop (b ((i + t) % cap)) = true →
      (∀ s, s < t → stop (b ((i + s) % cap)) = false) →
      probe stop b cap fuel i = some ((i + t) % cap) := by
  intro fuel
  induction fuel with
  | zero => intro i t _ h; omega
  | succ n ih =>
    intro i t hi ht hstop hbefore
    simp only [probe]
    cases t with
    | zero =>
      simp only [Nat.add_zero, Nat.mod_eq_of_lt hi] at hstop ⊢
      rw [if_pos hstop]
    | succ t =>
      have h0 := hbefore 0 (by omega)
      simp only [Nat.add_zero, Nat.mod_eq_of_lt hi] at h0
      rw [if_neg (by simp [h0])]
      rw [← off_succ hi]
      apply ih (next cap i) t (next_lt (by omega) i) (by omega)
      · rw [off_succ hi]; exact hstop
      · intro s hs; rw [off_succ hi]; exact hbefore (s + 1) (by omega)

theorem probe_of_hit (stop : HASH_NODE K V → Bool) (b : Nat → HASH_NODE K V) {cap : Nat}
    (fuel i t : Nat) (hi : i < cap) (ht : t < fuel) (hstop : stop (b ((i + t) % cap)) = true) :
    ∃ t0, t0 ≤ t ∧ stop (b ((i + t0) % cap)) = true ∧
      (∀ s, s < t0 → stop (b ((i + s) % cap)) = false) ∧
      probe stop b cap fuel i = some ((i + t0) % cap) := by
  classical
  have hex : ∃ u, stop (b ((i + u) % cap)) = true := ⟨t, hstop⟩
  refine ⟨Nat.find hex, Nat.find_min' hex hstop, Nat.find_spec hex, ?_, ?_⟩
  · intro s hs
    have := Nat.find_min hex hs
    simpa using this
  · apply probe_of_first stop b fuel i _ hi (lt_of_le_of_lt (Nat.find_min' hex hstop) ht)
      (Nat.find_spec hex)
    intro s hs
    have := Nat.find_min hex hs
    simpa using this

theorem probe_of_slot (stop : HASH_NODE K V → Bool) (b : Nat → HASH_NODE K V) {cap : Nat}
    (i x : Nat) (hi : i < cap) (hx : x < cap) (hstop : stop (b x) = true) :
    ∃ j, probe stop b cap cap i = some j := by
  have h := probe_of_hit stop b cap i ((x + cap - i) % cap) hi (Nat.mod_lt _ (by omega))
    (by rw [off_inv hi hx]; exact hstop)
  obtain ⟨t0, _, _, _, h4⟩ := h
  exact ⟨_, h4⟩

theorem probe_mono (stop : HASH_NODE K V → Bool) (b : Nat → HASH_NODE K V) {cap : Nat} :
    ∀ (fuel fuel2 i j : Nat), fuel ≤ fuel2 → probe stop b cap fuel i = some j →
      probe stop b cap fuel2 i = some j := by
  intro fuel
  induction fuel with
  | zero => intro f2 i j _ h; simp [probe] at h
  | succ n ih =>
    intro f2 i j hle h
    obtain ⟨f3, rfl⟩ : ∃ f3, f2 = f3 + 1 := ⟨f2 - 1, by omega⟩
    simp only [probe] at h ⊢
    by_cases hs : stop (b i) = true
    · rw [if_pos hs] at h ⊢; exact h
    · rw [if_neg hs] at h ⊢; exact ih f3 _ j (by omega) h

theorem probe_none_of_no_hit (stop : HASH_NODE K V → Bool) (b : Nat → HASH_NODE K V) {cap : Nat}
    (hno : ∀ x, x < cap → stop (b x) = false) :
    ∀ (fuel i : Nat), i < cap → probe stop b cap fuel i = none := by
  intro fuel
  induction fuel with
  | zero => intro i _; rfl
  | succ n ih =>
    intro i hi
    simp only [probe]
    rw [if_neg (by simp [hno i hi])]
    exact ih _ (next_lt (by omega) i)

/-- A budget of `cap` steps decides the unbounded loop: any larger budget gives the same
outcome, so `none` at budget `cap` means that no budget suffices. -/
theorem probe_budget_exact (stop : HASH_NODE K V → Bool) (b : Nat → HASH_NODE K V) {cap : Nat}
    (fuel i : Nat) (hi : i < cap) (hf : cap ≤ fuel) :
    probe stop b cap fuel i = probe stop b cap cap i := by
  cases h : probe stop b cap cap i with
  | some j => exact probe_mono stop b cap fuel i j hf h
  | none =>
    apply probe_none_of_no_hit stop b _ fuel i hi
    intro x hx
    by_contra hne
    have hst : stop (b x) = true := by simpa using hne
    obtain ⟨j, hj⟩ := probe_of_slot stop b i x hi hx hst
    rw [h] at hj; cases hj


theorem stopEmptyOrKey_of_empty (k : K) (nd : HASH_NODE K V) (h : nd.first = default) :
    stopEmptyOrKey k nd = true := by
  simp [stopEmptyOrKey, h]

theorem stopEmptyOrKey_of_key (k : K) (nd : HASH_NODE K V) (h : nd.first = k) :
    stopEmptyOrKey k nd = true := by
  simp [stopEmptyOrKey, h]

theorem stopEmptyOrKey_false (k : K) (nd : HASH_NODE K V) (h : stopEmptyOrKey k nd = false) :
    nd.first ≠ default ∧ nd.first ≠ k := by
  simpa [stopEmptyOrKey] using h

theorem HasEmpty.pos {m : HASH_MAP K V} (h : HasEmpty m) : 0 < m._bucket_count := by
  obtain ⟨i, hi, _⟩ := h; omega

theorem getStart_lt (hash : K → Nat) (m : HASH_MAP K V) (k : K) (h : 0 < m._bucket_count) :
    getStart hash m k < m._bucket_count := Nat.mod_lt _ h

/-- Overwriting the slot at which a scan stopped with a node on which the scan also stops
leaves the outcome of the scan unchanged. -/
theorem probe_update_hit (stop : HASH_NODE K V → Bool) (b : Nat → HASH_NODE K V) {cap : Nat}
    (fuel i j : Nat) (nd : HASH_NODE K V) (hi : i < cap)
    (h : probe stop b cap fuel i = some j) (hnd : stop nd = true) :
    probe stop (Function.update b j nd) cap fuel i = some j := by
  obtain ⟨t, ht, hj, hstop, hbefore⟩ := probe_eq_some stop b fuel i j hi h
  subst hj
  apply probe_of_first stop _ fuel i t hi ht
  · simp [hnd]
  · intro s hs
    have hne : (i + s) % cap ≠ (i + t) % cap := by
      intro heq
      have := hbefore s hs
      rw [heq, hstop] at this
      cases this
    rw [Function.update_noteq hne]
    exact hbefore s hs

/-- With an empty slot in the table the scan of `insert_or_assign`, `find`, `contains` and
`at` stops. -/
theorem probe_key_of_hasEmpty (hash : K → Nat) (m : HASH_MAP K V) (k : K) (he : HasEmpty m) :
    ∃ j, probe (stopEmptyOrKey k) m.buckets m._bucket_count m._bucket_count
      (getStart hash m k) = some j := by
  obtain ⟨x, hx, hxe⟩ := he
  exact probe_of_slot _ _ _ x (getStart_lt hash m k (by omega)) hx
    (stopEmptyOrKey_of_empty k _ hxe)

theorem probe_lt (stop : HASH_NODE K V → Bool) (b : Nat → HASH_NODE K V) {cap : Nat}
    (fuel i j : Nat) (hi : i < cap) (h : probe stop b cap fuel i = some j) : j < cap := by
  obtain ⟨t, _, hj, _, _⟩ := probe_eq_some stop b fuel i j hi h
  rw [hj]; exact Nat.mod_lt _ (by omega)

theorem insert_or_assign_eq (hash : K → Nat) (m : HASH_MAP K V) (k : K) (v : V) (j : Nat)
    (h : probe (stopEmptyOrKey k) m.buckets m._bucket_count m._bucket_count
      (getStart hash m k) = some j) :
    insert_or_assign hash m (k, v) =
      some (⟨m._bucket_count, m.array_size + 1, Function.update m.buckets j ⟨k, v⟩⟩, j,
        decide ((m.buckets j).first = default)) := by
  simp only [insert_or_assign, h]

/-- C1 (round trip): on a map with an empty slot, `insert_or_assign((k, v))` with `k` not the
default key returns a slot `j`, and afterwards `find(k)` returns that same slot `j`, which is
not `end()` and holds key `k` and value `v`. -/
theorem C1_insert_or_assign_find_round_trip (hash : K → Nat) (m : HASH_MAP K V) (k : K) (v : V)
    (he : HasEmpty m) (hk : k ≠ default) :
    ∃ m2 j flag, insert_or_assign hash m (k, v) = some (m2, j, flag) ∧
      find hash m2 k = some j ∧ j ≠ m2._bucket_count ∧
      (m2.buckets j).first = k ∧ (m2.buckets j).second = v := by
  obtain ⟨j, hj⟩ := probe_key_of_hasEmpty hash m k he
  have hs := getStart_lt hash m k he.pos
  have hlt := probe_lt _ _ _ _ _ hs hj
  refine ⟨_, j, _, insert_or_assign_eq hash m k v j hj, ?_, ?_, ?_, ?_⟩
  · have h2 := probe_update_hit (stopEmptyOrKey k) m.buckets _ _ j ⟨k, v⟩ hs hj
      (stopEmptyOrKey_of_key k _ rfl)
    simp only [find, getStart] at h2 ⊢
    rw [h2]
    simp [hk]
  · exact Nat.ne_of_lt hlt
  · simp
  · simp

/-- Witness for C1 on the freshly constructed map with keys in `Nat` hashed by the identity. -/
theorem C1_insert_or_assign_find_round_trip_witness :
    HasEmpty (HASH_MAP.new : HASH_MAP Nat Nat) ∧ (7 : Nat) ≠ default ∧ ∃ m2 j flag, insert_or_assign id (HASH_MAP.new : HASH_MAP Nat Nat) (7, 3) = some (m2, j, flag) ∧
      find id m2 7 = some j ∧ j ≠ m2._bucket_count ∧
      (m2.buckets j).first = 7 ∧ (m2.buckets j).second = 3 :=
  ⟨⟨0, by decide, rfl⟩, by decide,
    C1_insert_or_assign_find_round_trip id HASH_MAP.new 7 3 ⟨0, by decide, rfl⟩ (by decide)⟩

/-! ## Counting slots -/

theorem off_inj {cap i t u : Nat} (ht : t < cap) (hu : u < cap)
    (h : (i + t) % cap = (i + u) % cap) : t = u := by
  have h1 : t ≡ u [MOD cap] := Nat.ModEq.add_left_cancel' i h
  have h2 : t % cap = u % cap := h1
  rwa [Nat.mod_eq_of_lt ht, Nat.mod_eq_of_lt hu] at h2

theorem countP_range_eq_card (p : Nat → Bool) (n : Nat) :
    (List.range n).countP p = ((Finset.range n).filter (fun i => p i = true)).card := by
  induction n with
  | zero => simp
  | succ n ih =>
    rw [List.range_succ, List.countP_append, ih, Finset.range_succ, Finset.filter_insert]
    by_cases hp : p n = true
    · rw [if_pos hp, Finset.card_insert_of_not_mem (by simp)]
      simp [hp]
    · rw [if_neg hp]
      simp [hp]

theorem card_offsets (p : Nat → Prop) [DecidablePred p] {cap i : Nat} (hi : i < cap) :
    ((Finset.range cap).filter (fun t => p ((i + t) % cap))).card =
      ((Finset.range cap).filter p).card := by
  apply Finset.card_bij (fun t _ => (i + t) % cap)
  · intro t ht
    simp only [Finset.mem_filter, Finset.mem_range] at ht ⊢
    exact ⟨Nat.mod_lt _ (by omega), ht.2⟩
  · intro t ht u hu h
    simp only [Finset.mem_filter, Finset.mem_range] at ht hu
    exact off_inj ht.1 hu.1 h
  · intro x hx
    simp only [Finset.mem_filter, Finset.mem_range] at hx
    refine ⟨(x + cap - i) % cap, ?_, off_inv hi hx.1⟩
    simp only [Finset.mem_filter, Finset.mem_range]
    exact ⟨Nat.mod_lt _ (by omega), by rw [off_inv hi hx.1]; exact hx.2⟩

theorem slotsWith_eq_card (b : Nat → HASH_NODE K V) (cap : Nat) (k : K) :
    slotsWith b cap k = ((Finset.range cap).filter (fun i => (b i).first = k)).card := by
  unfold slotsWith
  rw [countP_range_eq_card]
  congr 1
  ext i
  simp

theorem occupied_eq_card (b : Nat → HASH_NODE K V) (cap : Nat) :
    occupied b cap = ((Finset.range cap).filter (fun i => (b i).first ≠ default)).card := by
  unfold occupied
  rw [countP_range_eq_card]
  congr 1
  ext i
  simp

/-- The value returned by the loop of `count` when the first empty slot is `d` steps away. -/
theorem countLoop_spec (k : K) (b : Nat → HASH_NODE K V) {cap : Nat} :
    ∀ (fuel i acc d : Nat), i < cap → d < fuel → (b ((i + d) % cap)).first = default →
      (∀ s, s < d → (b ((i + s) % cap)).first ≠ default) →
      countLoop k b cap fuel i acc =
        some (acc + (List.range d).countP (fun t => decide ((b ((i + t) % cap)).first = k))) := by
  intro fuel
  induction fuel with
  | zero => intro i acc d _ h; omega
  | succ n ih =>
    intro i acc d hi hd hempty hbefore
    simp only [countLoop]
    cases d with
    | zero =>
      simp only [Nat.add_zero, Nat.mod_eq_of_lt hi] at hempty
      simp [hempty]
    | succ d =>
      have h0 := hbefore 0 (by omega)
      simp only [Nat.add_zero, Nat.mod_eq_of_lt hi] at h0
      rw [if_neg h0]
      rw [ih (next cap i) _ d (next_lt (by omega) i) (by omega)
        (by rw [off_succ hi]; exact hempty)
        (by intro s hs; rw [off_succ hi]; exact hbefore (s + 1) (by omega))]
      rw [List.range_succ_eq_map, List.countP_cons, List.countP_map]
      simp only [Nat.add_zero, Nat.mod_eq_of_lt hi]
      have hfun : (fun t => decide ((b ((next cap i + t) % cap)).first = k)) =
          ((fun t => decide ((b ((i + t) % cap)).first = k)) ∘ Nat.succ) := by
        funext t
        simp only [Function.comp, Nat.succ_eq_add_one]
        rw [off_succ hi]
      rw [hfun]
      by_cases hk : (b i).first = k
      · simp [hk]; omega
      · simp [hk]

theorem countLoop_none_of_full (k : K) (b : Nat → HASH_NODE K V) {cap : Nat}
    (hfull : ∀ x, x < cap → (b x).first ≠ default) :
    ∀ (fuel i acc : Nat), i < cap → countLoop k b cap fuel i acc = none := by
  intro fuel
  induction fuel with
  | zero => intro i acc _; rfl
  | succ n ih =>
    intro i acc hi
    simp only [countLoop]
    rw [if_neg (hfull i hi)]
    exact ih _ _ (next_lt (by omega) i)

/-- The first empty slot in probe order from `i`, when the table has one. -/
theorem first_empty_offset (b : Nat → HASH_NODE K V) {cap : Nat} (i x : Nat) (hi : i < cap)
    (hx : x < cap) (hxe : (b x).first = default) :
    ∃ d, d < cap ∧ (b ((i + d) % cap)).first = default ∧
      ∀ s, s < d → (b ((i + s) % cap)).first ≠ default := by
  obtain ⟨t0, ht0, hstop, hbefore, _⟩ := probe_of_hit stopEmpty b cap i ((x + cap - i) % cap) hi
    (Nat.mod_lt _ (by omega)) (by rw [off_inv hi hx]; simp [stopEmpty, hxe])
  refine ⟨t0, lt_of_le_of_lt ht0 (Nat.mod_lt _ (by omega)), by simpa [stopEmpty] using hstop, ?_⟩
  intro s hs
  simpa [stopEmpty] using hbefore s hs

/-- A budget of `cap` steps decides the loop of `count`. -/
theorem countLoop_budget_exact (k : K) (b : Nat → HASH_NODE K V) {cap : Nat}
    (fuel i acc : Nat) (hi : i < cap) (hf : cap ≤ fuel) :
    countLoop k b cap fuel i acc = countLoop k b cap cap i acc := by
  by_cases hex : ∃ x, x < cap ∧ (b x).first = default
  · obtain ⟨x, hx, hxe⟩ := hex
    obtain ⟨d, hd, hde, hbefore⟩ := first_empty_offset b i x hi hx hxe
    rw [countLoop_spec k b fuel i acc d hi (by omega) hde hbefore,
      countLoop_spec k b cap i acc d hi hd hde hbefore]
  · have hfull : ∀ x, x < cap → (b x).first ≠ default := by
      intro x hx hxe; exact hex ⟨x, hx, hxe⟩
    rw [countLoop_none_of_full k b hfull, countLoop_none_of_full k b hfull] <;> assumption

/-- When the table has an empty slot and every slot holding `k` is reached from the start
index of `k` before an empty slot, `count(k)` is the number of slots holding `k`. -/
theorem count_eq_slotsWith (hash : K → Nat) (m : HASH_MAP K V) (k : K) (he : HasEmpty m)
    (hreach : ∀ x, x < m._bucket_count → (m.buckets x).first = k →
      Reachable m.buckets m._bucket_count (getStart hash m k) x) :
    count hash m k = some (slotsWith m.buckets m._bucket_count k) := by
  obtain ⟨x, hx, hxe⟩ := he
  have hs := getStart_lt hash m k (by omega)
  obtain ⟨d, hd, hde, hbefore⟩ := first_empty_offset m.buckets _ x hs hx hxe
  unfold count
  rw [countLoop_spec k m.buckets _ _ 0 d hs hd hde hbefore, Nat.zero_add,
    slotsWith_eq_card, countP_range_eq_card,
    ← card_offsets (fun i => (m.buckets i).first = k) hs]
  congr 2
  ext t
  simp only [Finset.mem_filter, Finset.mem_range, decide_eq_true_eq]
  constructor
  · rintro ⟨htd, hk⟩; exact ⟨by omega, hk⟩
  · rintro ⟨htc, hk⟩
    refine ⟨?_, hk⟩
    obtain ⟨u, hu, hux, hocc⟩ := hreach _ (Nat.mod_lt _ (by omega)) hk
    have : u = t := off_inj hu htc hux
    subst this
    by_contra hge
    exact hocc d (by omega) hde

/-- Effect of one slot write on the number of slots satisfying a predicate. -/
theorem card_filter_update (p : HASH_NODE K V → Prop) [DecidablePred p]
    (b : Nat → HASH_NODE K V) {cap j : Nat} (hj : j < cap) (nd : HASH_NODE K V) :
    ((Finset.range cap).filter (fun i => p (Function.update b j nd i))).card
        + (if p (b j) then 1 else 0) =
      ((Finset.range cap).filter (fun i => p (b i))).card + (if p nd then 1 else 0) := by
  have hmem : j ∈ Finset.range cap := Finset.mem_range.mpr hj
  have hrest : ((Finset.range cap).erase j).filter (fun i => p (Function.update b j nd i)) =
      ((Finset.range cap).erase j).filter (fun i => p (b i)) := by
    apply Finset.filter_congr
    intro i hi
    rw [Function.update_noteq (Finset.ne_of_mem_erase hi)]
  rw [← Finset.insert_erase hmem, Finset.filter_insert, Finset.filter_insert, hrest]
  simp only [Function.update_same]
  have hnot : ∀ q : Nat → Prop, ∀ [DecidablePred q],
      j ∉ ((Finset.range cap).erase j).filter q := by
    intro q _ hin
    exact Finset.not_mem_erase j _ (Finset.mem_of_mem_filter j hin)
  by_cases h1 : p nd <;> by_cases h2 : p (b j) <;>
    simp only [h1, h2, if_true, if_false, Finset.card_insert_of_not_mem (hnot _)]

theorem slotsWith_update (b : Nat → HASH_NODE K V) {cap j : Nat} (hj : j < cap)
    (nd : HASH_NODE K V) (k : K) :
    slotsWith (Function.update b j nd) cap k + (if (b j).first = k then 1 else 0) =
      slotsWith b cap k + (if nd.first = k then 1 else 0) := by
  rw [slotsWith_eq_card, slotsWith_eq_card]
  exact card_filter_update (fun n => n.first = k) b hj nd

theorem occupied_update (b : Nat → HASH_NODE K V) {cap j : Nat} (hj : j < cap)
    (nd : HASH_NODE K V) :
    occupied (Function.update b j nd) cap + (if (b j).first ≠ default then 1 else 0) =
      occupied b cap + (if nd.first ≠ default then 1 else 0) := by
  rw [occupied_eq_card, occupied_eq_card]
  exact card_filter_update (fun n => n.first ≠ default) b hj nd

theorem slotsWith_eq_zero (b : Nat → HASH_NODE K V) (cap : Nat) (k : K)
    (h : ∀ i, i < cap → (b i).first ≠ k) : slotsWith b cap k = 0 := by
  rw [slotsWith_eq_card, Finset.card_eq_zero, Finset.filter_eq_empty_iff]
  intro i hi
  exact h i (Finset.mem_range.mp hi)

/-- The slot at which a scan stopped is reached from the start index once it is occupied. -/
theorem reachable_of_probe (stop : HASH_NODE K V → Bool) (b : Nat → HASH_NODE K V) {cap : Nat}
    (i j : Nat) (nd : HASH_NODE K V) (hi : i < cap)
    (h : probe stop b cap cap i = some j)
    (hstop : ∀ n : HASH_NODE K V, stop n = false → n.first ≠ default)
    (hnd : nd.first ≠ default) :
    Reachable (Function.update b j nd) cap i j := by
  obtain ⟨t, ht, hj, hst, hbefore⟩ := probe_eq_some stop b cap i j hi h
  subst hj
  refine ⟨t, ht, rfl, ?_⟩
  intro s hs
  by_cases hst2 : s = t
  · subst hst2; simpa using hnd
  · have hlt : s < t := by omega
    have hne : (i + s) % cap ≠ (i + t) % cap := by
      intro heq
      have := hbefore s hlt
      rw [heq, hst] at this
      cases this
    rw [Function.update_noteq hne]
    exact hstop _ (hbefore s hlt)

theorem count_none_of_full (hash : K → Nat) (m : HASH_MAP K V) (k : K)
    (hpos : 0 < m._bucket_count) (hfull : ¬ HasEmpty m) : count hash m k = none := by
  apply countLoop_none_of_full k m.buckets _ _ _ _ (getStart_lt hash m k hpos)
  intro x hx hxe
  exact hfull ⟨x, hx, hxe⟩

/-- Two `insert_or_assign` calls with the same key `k` (not the default key) on a map with an
empty slot in which no slot holds `k`: the first returns `true`, the second returns the same
slot and `false`; afterwards exactly one slot holds `k`, it is reached from the start index of
`k`, it is the slot `find(k)` returns and its value is `v2`; and if the table still has an
empty slot, `count(k)` returns `1`. -/
theorem insert_or_assign_twice (hash : K → Nat) (m : HASH_MAP K V) (k : K) (v1 v2 : V)
    (he : HasEmpty m) (hk : k ≠ default)
    (habs : ∀ i, i < m._bucket_count → (m.buckets i).first ≠ k) :
    ∃ m1 j m2, insert_or_assign hash m (k, v1) = some (m1, j, true) ∧
      insert_or_assign hash m1 (k, v2) = some (m2, j, false) ∧
      slotsWith m2.buckets m2._bucket_count k = 1 ∧
      Reachable m2.buckets m2._bucket_count (getStart hash m2 k) j ∧
      find hash m2 k = some j ∧ j < m2._bucket_count ∧
      (m2.buckets j).first = k ∧ (m2.buckets j).second = v2 ∧
      (HasEmpty m2 → count hash m2 k = some 1) := by
  obtain ⟨j, hj⟩ := probe_key_of_hasEmpty hash m k he
  have hs := getStart_lt hash m k he.pos
  have hlt := probe_lt _ _ _ _ _ hs hj
  obtain ⟨t, ht, hjt, hstop, hbefore⟩ := probe_eq_some _ _ _ _ _ hs hj
  have hje : (m.buckets j).first = default := by
    have := hstop
    simp only [stopEmptyOrKey, Bool.or_eq_true, decide_eq_true_eq] at this
    rcases this with h | h
    · exact h
    · exact absurd h (habs j hlt)
  have h1 := insert_or_assign_eq hash m k v1 j hj
  have hj1 := probe_update_hit (stopEmptyOrKey k) m.buckets _ _ j ⟨k, v1⟩ hs hj
    (stopEmptyOrKey_of_key k _ rfl)
  have hj2 := probe_update_hit (stopEmptyOrKey k) m.buckets _ _ j ⟨k, v2⟩ hs hj
    (stopEmptyOrKey_of_key k _ rfl)
  have h2 := insert_or_assign_eq hash
    ⟨m._bucket_count, m.array_size + 1, Function.update m.buckets j ⟨k, v1⟩⟩ k v2 j hj1
  simp only [Function.update_idem, Function.update_same] at h2
  have hcnt : slotsWith (Function.update m.buckets j ⟨k, v2⟩) m._bucket_count k = 1 := by
    have := slotsWith_update m.buckets hlt ⟨k, v2⟩ k
    rw [slotsWith_eq_zero m.buckets _ k habs, if_neg (habs j hlt)] at this
    simpa using this
  have hreach : Reachable (Function.update m.buckets j ⟨k, v2⟩) m._bucket_count
      (getStart hash m k) j :=
    reachable_of_probe _ _ _ _ _ hs hj (fun n hn => (stopEmptyOrKey_false k n hn).1) hk
  refine ⟨⟨m._bucket_count, m.array_size + 1, Function.update m.buckets j ⟨k, v1⟩⟩, j,
    ⟨m._bucket_count, m.array_size + 1 + 1, Function.update m.buckets j ⟨k, v2⟩⟩,
    by rw [h1, hje]; simp, by rw [h2]; simp [hk], hcnt, hreach, ?_, hlt,
    by simp, by simp, ?_⟩
  · simp only [find, getStart] at hj2 ⊢
    rw [hj2]
    simp [hk]
  · intro he2
    rw [← hcnt]
    apply count_eq_slotsWith hash _ k he2
    intro x hx hxk
    have hxj : x = j := by
      by_contra hne
      simp only [Function.update_noteq hne] at hxk
      exact habs x hx hxk
    subst hxj
    exact hreach

theorem new_buckets_first (i : Nat) :
    ((HASH_MAP.new : HASH_MAP K V).buckets i).first = default := rfl

theorem new_hasEmpty : HasEmpty (HASH_MAP.new : HASH_MAP K V) :=
  ⟨0, show 0 < 100 by omega, rfl⟩

theorem shiftTable_succ (n : Nat) :
    Function.update (shiftTable n) n ⟨100 + n, 0⟩ = shiftTable (n + 1) := by
  funext i
  by_cases hi : i = n
  · subst hi; simp [shiftTable]
  · rw [Function.update_noteq hi]
    simp only [shiftTable]
    by_cases h : i < n
    · rw [if_pos h, if_pos (by omega)]
    · rw [if_neg h, if_neg (by omega)]

/-- The calls `insert_or_assign((100 + i, 0))`, `i = 0 .. n-1`, on a fresh map fill the slots
`0 .. n-1` and never change the capacity. -/
theorem assignAll_shift :
    ∀ n, n ≤ 100 → assignAll id (HASH_MAP.new : HASH_MAP Nat Nat) (shiftOps n)
      = some ⟨100, n, shiftTable n⟩ := by
  intro n
  induction n with
  | zero =>
    intro _
    have h0 : shiftTable 0 = newArray := by
      funext i
      simp only [shiftTable, newArray]
      rw [if_neg (by omega)]
    rw [h0]; rfl
  | succ n ih =>
    intro hn
    have hops : shiftOps (n + 1) = shiftOps n ++ [(100 + n, 0)] := by
      simp [shiftOps, List.range_succ]
    have hstart : getStart id (⟨100, n, shiftTable n⟩ : HASH_MAP Nat Nat) (100 + n) = n := by
      show (100 + n) % 100 = n
      omega
    have hp : probe (stopEmptyOrKey (100 + n)) (shiftTable n) 100 100
        (getStart id (⟨100, n, shiftTable n⟩ : HASH_MAP Nat Nat) (100 + n)) = some n := by
      rw [hstart]
      apply probe_now _ _ _ _ _ (by omega)
      apply stopEmptyOrKey_of_empty
      simp only [shiftTable]
      rw [if_neg (by omega)]; rfl
    have hstep := insert_or_assign_eq id (⟨100, n, shiftTable n⟩ : HASH_MAP Nat Nat)
      (100 + n) 0 n hp
    simp only [shiftTable_succ] at hstep
    unfold assignAll at ih ⊢
    rw [hops, List.foldlM_append, ih (by omega)]
    simp only [Option.bind_eq_bind, Option.some_bind, List.foldlM_cons, List.foldlM_nil]
    rw [hstep]; rfl

theorem nearlyFull_reached :
    assignAll id (HASH_MAP.new : HASH_MAP Nat Nat) (shiftOps 99) = some nearlyFull :=
  assignAll_shift 99 (by omega)

/-- C2 fails on `nearlyFull`, the map reached from a fresh map by
`insert_or_assign((100 + i, 0))` for `i = 0 .. 98`: it has an empty slot and no slot holds
key `99`.  The calls `insert_or_assign((99, 1))`, `insert_or_assign((99, 2))` return `true`
and `false` and leave one slot holding `99`, with value `2`; but the first call fills the last
empty slot and returns before the growth check, so the capacity stays `100` and `count(99)`
afterwards never returns, under any step budget.  `insert((99, 1))` on the same map runs the
growth check, grows the table to `200` slots, and `count(99)` then returns `1`. -/
theorem C2_insert_or_assign_fills_table :
    assignAll id (HASH_MAP.new : HASH_MAP Nat Nat) (shiftOps 99) = some nearlyFull ∧
    HasEmpty nearlyFull ∧ (99 : Nat) ≠ default ∧
    (∀ i, i < nearlyFull._bucket_count → (nearlyFull.buckets i).first ≠ 99) ∧
    (∃ m1 j m2, insert_or_assign id nearlyFull (99, 1) = some (m1, j, true) ∧
      insert_or_assign id m1 (99, 2) = some (m2, j, false) ∧
      m2.bucket_count = 100 ∧ slotsWith m2.buckets m2._bucket_count 99 = 1 ∧
      (m2.buckets j).first = 99 ∧ (m2.buckets j).second = 2 ∧
      count id m2 99 ≠ some 1 ∧
      ∀ fuel, countLoop 99 m2.buckets m2._bucket_count fuel (getStart id m2 99) 0 = none) ∧
    (insert id nearlyFull (99, 1)).map (fun m2 => m2.bucket_count) = some 200 ∧
    (insert id nearlyFull (99, 1)).bind (fun m2 => count id m2 99) = some 1 := by
  refine ⟨nearlyFull_reached, ⟨99, by decide, rfl⟩, by decide, ?_,
    ⟨⟨100, 100, Function.update nearlyFull.buckets 99 ⟨99, 1⟩⟩, 99,
      ⟨100, 101, Function.update (Function.update nearlyFull.buckets 99 ⟨99, 1⟩) 99 ⟨99, 2⟩⟩,
      rfl, rfl, rfl, by decide, rfl, rfl, ?_, ?_⟩, by decide, by decide⟩
  · intro i hi
    simp only [nearlyFull] at hi ⊢
    split
    · simp only; omega
    · decide
  · decide
  · intro fuel
    apply countLoop_none_of_full
    · intro x hx
      simp only [nearlyFull] at hx ⊢
      by_cases h : x = 99
      · subst h; simp
      · rw [Function.update_noteq h, Function.update_noteq h]
        rw [if_pos (by omega)]
        simp
    · exact Nat.mod_lt _ (by decide)

/-! ## Rebuilding a table -/

theorem exists_empty_of_occupied_lt (b : Nat → HASH_NODE K V) (cap : Nat)
    (h : occupied b cap < cap) : ∃ x, x < cap ∧ (b x).first = default := by
  by_contra hno
  have hall : ∀ x, x < cap → (b x).first ≠ default := by
    intro x hx hxe; exact hno ⟨x, hx, hxe⟩
  rw [occupied_eq_card] at h
  have : (Finset.range cap).filter (fun i => (b i).first ≠ default) = Finset.range cap := by
    apply Finset.filter_true_of_mem
    intro x hx; exact hall x (Finset.mem_range.mp hx)
  rw [this, Finset.card_range] at h
  omega

theorem occupied_le (b : Nat → HASH_NODE K V) (n : Nat) : occupied b n ≤ n := by
  unfold occupied
  calc (List.range n).countP _ ≤ (List.range n).length := List.countP_le_length _
    _ = n := List.length_range n

theorem occupied_succ (b : Nat → HASH_NODE K V) (n : Nat) :
    occupied b (n + 1) = occupied b n + (if (b n).first ≠ default then 1 else 0) := by
  unfold occupied
  rw [List.range_succ, List.countP_append]
  by_cases h : (b n).first = default <;> simp [h]

theorem slotsWith_succ (b : Nat → HASH_NODE K V) (n : Nat) (k : K) :
    slotsWith b (n + 1) k = slotsWith b n k + (if (b n).first = k then 1 else 0) := by
  unfold slotsWith
  rw [List.range_succ, List.countP_append]
  by_cases h : (b n).first = k <;> simp [h]

theorem ne_of_slotsWith_eq_zero (b : Nat → HASH_NODE K V) (cap : Nat) (k : K)
    (h : slotsWith b cap k = 0) : ∀ i, i < cap → (b i).first ≠ k := by
  rw [slotsWith_eq_card, Finset.card_eq_zero, Finset.filter_eq_empty_iff] at h
  intro i hi
  exact h (Finset.mem_range.mpr hi)

/-- Filling an empty slot keeps every slot that was reached before reached. -/
theorem reachable_update_empty {b : Nat → HASH_NODE K V} {cap h x j : Nat}
    (hr : Reachable b cap h x) (hje : (b j).first = default) (nd : HASH_NODE K V) :
    Reachable (Function.update b j nd) cap h x := by
  obtain ⟨t, ht, hx, hocc⟩ := hr
  refine ⟨t, ht, hx, ?_⟩
  intro s hs
  have hne : (h + s) % cap ≠ j := by
    intro heq
    exact hocc s hs (by rw [heq]; exact hje)
  rw [Function.update_noteq hne]
  exact hocc s hs

/-- Filling an empty slot does not move the slot at which the scan for a key stops. -/
theorem firstHit_update_empty {b : Nat → HASH_NODE K V} {cap h j x : Nat} {k : K}
    (hf : FirstHit b cap h k x) (hk : k ≠ default) (hje : (b j).first = default)
    (nd : HASH_NODE K V) :
    FirstHit (Function.update b j nd) cap h k x ∧ Function.update b j nd x = b x := by
  obtain ⟨u, hu, hx, hxk, hbefore⟩ := hf
  have hxj : x ≠ j := by
    intro heq
    rw [heq, hje] at hxk
    exact hk hxk.symm
  refine ⟨⟨u, hu, hx, by rw [Function.update_noteq hxj]; exact hxk, ?_⟩,
    Function.update_noteq hxj _ _⟩
  intro s hs
  have hne : (h + s) % cap ≠ j := by
    intro heq
    exact (hbefore s hs).1 (by rw [heq]; exact hje)
  rw [Function.update_noteq hne]
  exact hbefore s hs

/-- The write done by `insert`, `rehash` and `at` on a table with the probe-chain property:
the first empty slot in probe order from the start index of the key is filled. -/
theorem Chain.update_probe {hash : K → Nat} {b : Nat → HASH_NODE K V} {cap j : Nat}
    (hc : Chain hash b cap) (nd : HASH_NODE K V) (hnd : nd.first ≠ default)
    (hpos : 0 < cap)
    (hj : probe stopEmpty b cap cap (hash nd.first % cap) = some j) :
    Chain hash (Function.update b j nd) cap := by
  have hs : hash nd.first % cap < cap := Nat.mod_lt _ hpos
  obtain ⟨t, ht, hjt, hstop, hbefore⟩ := probe_eq_some _ _ _ _ _ hs hj
  have hje : (b j).first = default := by simpa [stopEmpty] using hstop
  intro x hx hxo
  by_cases hxj : x = j
  · subst hxj
    simp only [Function.update_same] at hxo ⊢
    exact reachable_of_probe stopEmpty b _ _ nd hs hj
      (fun n hn => by simpa [stopEmpty] using hn) hnd
  · rw [Function.update_noteq hxj] at hxo ⊢
    exact reachable_update_empty (hc x hx hxo) hje nd

theorem firstHit_of_probe_empty {b : Nat → HASH_NODE K V} {cap i j : Nat}
    (nd : HASH_NODE K V) (hnd : nd.first ≠ default) (hi : i < cap)
    (hj : probe stopEmpty b cap cap i = some j)
    (habs : ∀ x, x < cap → (b x).first ≠ nd.first) :
    FirstHit (Function.update b j nd) cap i nd.first j := by
  obtain ⟨t, ht, hjt, hstop, hbefore⟩ := probe_eq_some _ _ _ _ _ hi hj
  subst hjt
  refine ⟨t, ht, rfl, by simp, ?_⟩
  intro s hs
  have hocc : (b ((i + s) % cap)).first ≠ default := by
    simpa [stopEmpty] using hbefore s hs
  have hne : (i + s) % cap ≠ (i + t) % cap := by
    intro heq
    rw [heq] at hocc
    exact hocc (by simpa [stopEmpty] using hstop)
  rw [Function.update_noteq hne]
  exact ⟨hocc, habs _ (Nat.mod_lt _ (by omega))⟩

theorem rebuildInv_zero (hash : K → Nat) (old : Nat → HASH_NODE K V) (newCap : Nat) :
    RebuildInv hash old newCap 0 (newArray : Nat → HASH_NODE K V) := by
  refine ⟨?_, ?_, ?_, ?_⟩
  · intro x _ hxo; exact absurd rfl hxo
  · have h0 : occupied (newArray : Nat → HASH_NODE K V) newCap = 0 := by
      rw [occupied_eq_card, Finset.card_eq_zero, Finset.filter_eq_empty_iff]
      intro i _ h; exact h rfl
    rw [h0]; rfl
  · intro k hk
    rw [slotsWith_eq_zero _ _ _ (fun i _ h => hk h.symm)]; rfl
  · intro i hi; omega

/-- One step of the rebuild loop keeps its invariant and always finds a slot. -/
theorem rebuildInv_step (hash : K → Nat) (old : Nat → HASH_NODE K V) (newCap n : Nat)
    (t : Nat → HASH_NODE K V) (hn : n < newCap) (hinv : RebuildInv hash old newCap n t) :
    ∃ t2, reinsert hash newCap t (old n) = some t2 ∧ RebuildInv hash old newCap (n + 1) t2 := by
  obtain ⟨hchain, hocc, hslots, hfirst⟩ := hinv
  by_cases hkey : (old n).first = default
  · refine ⟨t, by simp [reinsert, hkey], hchain, ?_, ?_, ?_⟩
    · rw [occupied_succ, hocc]; simp [hkey]
    · intro k hk
      rw [slotsWith_succ, hslots k hk, if_neg (by rw [hkey]; exact fun h => hk h.symm)]
      rfl
    · intro i hi hio hfa
      have hin : i < n := by
        rcases Nat.lt_succ_iff_lt_or_eq.mp hi with h | h
        · exact h
        · subst h; exact absurd hkey hio
      exact hfirst i hin hio hfa
  · have hpos : 0 < newCap := by omega
    have hs : hash (old n).first % newCap < newCap := Nat.mod_lt _ hpos
    obtain ⟨x, hx, hxe⟩ := exists_empty_of_occupied_lt t newCap
      (by rw [hocc]; exact lt_of_le_of_lt (occupied_le old n) hn)
    obtain ⟨j, hj⟩ := probe_of_slot stopEmpty t _ x hs hx (by simp [stopEmpty, hxe])
    have hjlt := probe_lt _ _ _ _ _ hs hj
    obtain ⟨u, hu, hju, hstop, hbefore⟩ := probe_eq_some _ _ _ _ _ hs hj
    have hje : (t j).first = default := by simpa [stopEmpty] using hstop
    refine ⟨Function.update t j (old n), by simp [reinsert, hkey, hj],
      hchain.update_probe (old n) hkey hpos hj, ?_, ?_, ?_⟩
    · have := occupied_update t hjlt (old n)
      rw [if_neg (by simp [hje]), if_pos hkey] at this
      rw [occupied_succ, if_pos hkey, ← hocc]
      omega
    · intro k hk
      have := slotsWith_update t hjlt (old n) k
      rw [if_neg (by rw [hje]; exact fun h => hk h.symm)] at this
      rw [slotsWith_succ, ← hslots k hk]
      omega
    · intro i hi hio hfa
      rcases Nat.lt_succ_iff_lt_or_eq.mp hi with h | h
      · obtain ⟨j2, hf, hval⟩ := hfirst i h hio hfa
        obtain ⟨hf2, hsame⟩ := firstHit_update_empty hf hio hje (old n)
        exact ⟨j2, hf2, by rw [hsame, hval]⟩
      · subst h
        refine ⟨j, ?_, by simp⟩
        apply firstHit_of_probe_empty (old i) hkey hs hj
        apply ne_of_slotsWith_eq_zero
        rw [hslots _ hkey]
        exact slotsWith_eq_zero old i _ (fun i2 hi2 => hfa i2 hi2)

/-- The rebuild loop of `rehash` over the old slots `0 .. n-1` returns when the new table has
at least `n` slots, and its result satisfies the rebuild invariant. -/
theorem rehashLoop_spec (hash : K → Nat) (old : Nat → HASH_NODE K V) (newCap : Nat) :
    ∀ n, n ≤ newCap → ∃ t, rehashLoop hash old newCap n newArray = some t ∧
      RebuildInv hash old newCap n t := by
  intro n
  induction n with
  | zero => intro _; exact ⟨newArray, rfl, rebuildInv_zero hash old newCap⟩
  | succ n ih =>
    intro hn
    obtain ⟨t, ht, hinv⟩ := ih (by omega)
    obtain ⟨t2, ht2, hinv2⟩ := rebuildInv_step hash old newCap n t (by omega) hinv
    exact ⟨t2, by simp only [rehashLoop, ht, Option.some_bind, ht2], hinv2⟩

/-! ## `rehash` -/

theorem grownCount_of_le_half {c : Nat} (h : c ≤ 5000000) : grownCount c = c * 2 := by
  unfold grownCount _max_bucket_count
  split
  · rfl
  · split <;> omega

theorem grownCount_of_double {c : Nat} (h : c * 2 < _max_bucket_count) :
    grownCount c = c * 2 := by
  unfold grownCount; rw [if_pos h]

theorem grownCount_bounds {c : Nat} (h : c ≤ _max_bucket_count) :
    c ≤ grownCount c ∧ grownCount c ≤ _max_bucket_count := by
  unfold grownCount _max_bucket_count at *
  split
  · omega
  · split <;> omega

/-- `rehash` always returns: away from the maximum it rebuilds into `grownCount` slots from
the old slots `0 .. grownCount/2 - 1`, keeping `array_size`. -/
theorem rehash_spec (hash : K → Nat) (m : HASH_MAP K V)
    (hne : m._bucket_count ≠ _max_bucket_count) :
    ∃ t, rehash hash m = some ⟨grownCount m._bucket_count, m.array_size, t⟩ ∧
      RebuildInv hash m.buckets (grownCount m._bucket_count) (grownCount m._bucket_count / 2) t := by
  obtain ⟨t, ht, hinv⟩ := rehashLoop_spec hash m.buckets (grownCount m._bucket_count)
    (grownCount m._bucket_count / 2) (Nat.div_le_self _ _)
  exact ⟨t, by simp only [rehash, if_neg hne, ht, Option.map_some'], hinv⟩

theorem rehash_of_max (hash : K → Nat) (m : HASH_MAP K V)
    (h : m._bucket_count = _max_bucket_count) : rehash hash m = some m := by
  simp only [rehash, if_pos h]

/-- The scan of `find`, `contains` and `at` stops at the first-hit slot. -/
theorem probe_of_firstHit {b : Nat → HASH_NODE K V} {cap h j : Nat} {k : K}
    (hf : FirstHit b cap h k j) (hh : h < cap) :
    probe (stopEmptyOrKey k) b cap cap h = some j := by
  obtain ⟨u, hu, hj, hk, hbefore⟩ := hf
  subst hj
  apply probe_of_first _ _ _ _ u hh hu (stopEmptyOrKey_of_key k _ hk)
  intro s hs
  obtain ⟨h1, h2⟩ := hbefore s hs
  simp [stopEmptyOrKey, h1, h2]

theorem firstHit_of_probe {b : Nat → HASH_NODE K V} {cap h j : Nat} {k : K} (hh : h < cap)
    (hp : probe (stopEmptyOrKey k) b cap cap h = some j) (hk : (b j).first = k) :
    FirstHit b cap h k j := by
  obtain ⟨u, hu, hj, _, hbefore⟩ := probe_eq_some _ _ _ _ _ hh hp
  exact ⟨u, hu, hj.symm, hk, fun s hs => stopEmptyOrKey_false k _ (hbefore s hs)⟩

theorem FirstHit.lt {b : Nat → HASH_NODE K V} {cap h j : Nat} {k : K}
    (hf : FirstHit b cap h k j) : j < cap := by
  obtain ⟨u, hu, hj, _, _⟩ := hf
  rw [← hj]; exact Nat.mod_lt _ (by omega)

theorem find_of_firstHit (hash : K → Nat) (m : HASH_MAP K V) (k : K) (j : Nat)
    (hk : k ≠ default)
    (hf : FirstHit m.buckets m._bucket_count (getStart hash m k) k j) :
    find hash m k = some j ∧ contains hash m k = some true := by
  have hp := probe_of_firstHit hf (getStart_lt hash m k (by have := hf.lt; omega))
  have hkey : (m.buckets j).first = k := by
    obtain ⟨u, _, _, h, _⟩ := hf; exact h
  simp only [find, contains, hp, Option.map_some', hkey, if_neg hk]
  simp [hk]

theorem firstHit_of_contains (hash : K → Nat) (m : HASH_MAP K V) (k : K)
    (hc : contains hash m k = some true) :
    k ≠ default ∧ ∃ j, FirstHit m.buckets m._bucket_count (getStart hash m k) k j := by
  unfold contains at hc
  cases hp : probe (stopEmptyOrKey k) m.buckets m._bucket_count m._bucket_count
      (getStart hash m k) with
  | none => rw [hp] at hc; cases hc
  | some j =>
    rw [hp] at hc
    simp only [Option.map_some', Option.some.injEq, decide_eq_true_eq] at hc
    have hpos : 0 < m._bucket_count := by
      by_contra h0
      have : m._bucket_count = 0 := by omega
      rw [this] at hp
      simp [probe] at hp
    have hh := getStart_lt hash m k hpos
    obtain ⟨u, hu, hj, hstop, hbefore⟩ := probe_eq_some _ _ _ _ _ hh hp
    have hkey : (m.buckets j).first = k := by
      simp only [stopEmptyOrKey, Bool.or_eq_true, decide_eq_true_eq] at hstop
      rcases hstop with h | h
      · exact absurd h hc
      · exact h
    exact ⟨fun hk => hc (by rw [hkey, hk]), j, firstHit_of_probe hh hp hkey⟩

/-- Among the slots before `n`, a key held by some slot has a first slot in address order. -/
theorem exists_firstInAddressOrder (b : Nat → HASH_NODE K V) (n x : Nat) (k : K)
    (hx : x < n) (hk : (b x).first = k) :
    ∃ i, i ≤ x ∧ (b i).first = k ∧ FirstInAddressOrder b i := by
  classical
  have hex : ∃ i, (b i).first = k := ⟨x, hk⟩
  refine ⟨Nat.find hex, Nat.find_min' hex hk, Nat.find_spec hex, ?_⟩
  intro i2 hi2
  rw [Nat.find_spec hex]
  exact Nat.find_min hex hi2

/-- C4, amended (rehash preserves membership): for a map whose capacity is at most half the
maximum (so that `rehash()` doubles it) or equals the maximum (so that `rehash()` does
nothing), every key `k` with `contains(k)` true before `rehash()` has `contains(k)` true
after, and the slot found for `k` after is a copy of a slot that held `k` before: after a
doubling it is the copy of the first slot in address order holding `k`.  When only one slot
holds `k`, `find(k)->second` is the same before and after. -/
theorem C4_rehash_preserves_membership (hash : K → Nat) (m : HASH_MAP K V) (k : K)
    (hcap : m._bucket_count ≤ 5000000 ∨ m._bucket_count = _max_bucket_count)
    (hc : contains hash m k = some true) :
    ∃ m2 j0 j i, rehash hash m = some m2 ∧ contains hash m2 k = some true ∧
      find hash m k = some j0 ∧ find hash m2 k = some j ∧ j ≠ m2._bucket_count ∧
      i < m._bucket_count ∧ (m.buckets i).first = k ∧ m2.buckets j = m.buckets i ∧
      (m._bucket_count ≠ _max_bucket_count → FirstInAddressOrder m.buckets i) ∧
      ((∀ x, x < m._bucket_count → (m.buckets x).first = k → x = j0) →
        findValue hash m2 k = findValue hash m k) := by
  obtain ⟨hk, j0, hf0⟩ := firstHit_of_contains hash m k hc
  have hfind0 := (find_of_firstHit hash m k j0 hk hf0).1
  have hj0lt := hf0.lt
  have hj0k : (m.buckets j0).first = k := by
    obtain ⟨u, _, _, h, _⟩ := hf0; exact h
  by_cases hmax : m._bucket_count = _max_bucket_count
  · exact ⟨m, j0, j0, j0, rehash_of_max hash m hmax, hc, hfind0, hfind0, Nat.ne_of_lt hj0lt,
      hj0lt, hj0k, rfl, fun h => absurd hmax h, fun _ => rfl⟩
  · have hhalf : m._bucket_count ≤ 5000000 := by
      rcases hcap with h | h
      · exact h
      · exact absurd h hmax
    obtain ⟨t, ht, hinv⟩ := rehash_spec hash m hmax
    rw [grownCount_of_le_half hhalf] at ht hinv
    rw [Nat.mul_div_cancel _ (by norm_num : 0 < 2)] at hinv
    obtain ⟨i, hi, hik, hfa⟩ := exists_firstInAddressOrder m.buckets m._bucket_count j0 k
      hj0lt hj0k
    obtain ⟨j, hfj, hval⟩ := hinv.2.2.2 i (by omega) (by rw [hik]; exact hk) hfa
    rw [hik] at hfj
    have hres := find_of_firstHit hash ⟨m._bucket_count * 2, m.array_size, t⟩ k j hk hfj
    refine ⟨_, j0, j, i, ht, hres.2, hfind0, hres.1, Nat.ne_of_lt hfj.lt, by omega, hik, hval,
      fun _ => hfa, ?_⟩
    intro huniq
    have hij : i = j0 := huniq i (by omega) hik
    simp only [findValue, hres.1, hfind0, Option.map_some']
    rw [hval, hij]

/-- Witness for C4 on the map holding the single entry `(7, 3)` (keys in `Nat`, identity
hash). -/
theorem C4_rehash_preserves_membership_witness :
    (oneEntry._bucket_count ≤ 5000000 ∨ oneEntry._bucket_count = _max_bucket_count) ∧
    contains id oneEntry 7 = some true ∧
    ∃ m2 j0 j i, rehash id oneEntry = some m2 ∧ contains id m2 7 = some true ∧
      find id oneEntry 7 = some j0 ∧ find id m2 7 = some j ∧ j ≠ m2._bucket_count ∧
      i < oneEntry._bucket_count ∧ (oneEntry.buckets i).first = 7 ∧
      m2.buckets j = oneEntry.buckets i ∧
      (oneEntry._bucket_count ≠ _max_bucket_count → FirstInAddressOrder oneEntry.buckets i) ∧
      ((∀ x, x < oneEntry._bucket_count → (oneEntry.buckets x).first = 7 → x = j0) →
        findValue id m2 7 = findValue id oneEntry 7) :=
  ⟨Or.inl (by decide), by decide,
    C4_rehash_preserves_membership id oneEntry 7 (Or.inl (by decide)) (by decide)⟩

theorem dupWrap_reached :
    (insert id (HASH_MAP.new : HASH_MAP Nat Nat) (99, 1)).bind (fun m => insert id m (99, 2))
      = some dupWrap := rfl

/-- C4 as stated fails: in `dupWrap` (two `insert` calls with key `99` on a fresh map)
`contains(99)` is true and `find(99)->second` is `1`; after `rehash()`, which doubles the
capacity to `200`, `find(99)->second` is `2`. -/
theorem C4_counterexample :
    (insert id (HASH_MAP.new : HASH_MAP Nat Nat) (99, 1)).bind (fun m => insert id m (99, 2))
      = some dupWrap ∧
    contains id dupWrap 99 = some true ∧ findValue id dupWrap 99 = some 1 ∧
    (rehash id dupWrap).map (fun m2 => m2._bucket_count) = some 200 ∧
    (rehash id dupWrap).bind (fun m2 => contains id m2 99) = some true ∧
    (rehash id dupWrap).bind (fun m2 => findValue id m2 99) = some 2 := by
  refine ⟨dupWrap_reached, by decide, by decide, by decide, by decide, by decide⟩

/-! ## `insert` -/

theorem hasEmpty_of_occupied_lt (m : HASH_MAP K V)
    (h : occupied m.buckets m._bucket_count < m._bucket_count) : HasEmpty m :=
  exists_empty_of_occupied_lt m.buckets m._bucket_count h

/-- On a map with an empty slot `insert` writes the pair to the first empty slot in probe
order, increments `array_size` and runs the growth check. -/
theorem insert_eq (hash : K → Nat) (m : HASH_MAP K V) (p : K × V) (he : HasEmpty m) :
    ∃ j, probe stopEmpty m.buckets m._bucket_count m._bucket_count (getStart hash m p.1) = some j ∧
      j < m._bucket_count ∧ (m.buckets j).first = default ∧
      insert hash m p = growthCheck hash
        ⟨m._bucket_count, m.array_size + 1, Function.update m.buckets j ⟨p.1, p.2⟩⟩ := by
  obtain ⟨x, hx, hxe⟩ := he
  have hs := getStart_lt hash m p.1 (by omega)
  obtain ⟨j, hj⟩ := probe_of_slot stopEmpty m.buckets _ x hs hx (by simp [stopEmpty, hxe])
  obtain ⟨u, _, _, hstop, _⟩ := probe_eq_some _ _ _ _ _ hs hj
  exact ⟨j, hj, probe_lt _ _ _ _ _ hs hj, by simpa [stopEmpty] using hstop,
    by simp only [insert, hj]⟩

theorem callsWith_append_single (ops : List (K × V)) (p : K × V) (k : K) :
    callsWith (ops ++ [p]) k = callsWith ops k + (if p.1 = k then 1 else 0) := by
  unfold callsWith
  rw [List.countP_append]
  by_cases h : p.1 = k <;> simp [h]

theorem pow_bound_of_lt {e c : Nat} (he : e ≤ 16) (hc : c = 100 * 2 ^ e) (hlt : c < 6553600) :
    e + 1 ≤ 16 ∧ c * 2 = 100 * 2 ^ (e + 1) ∧ c * 2 < _max_bucket_count := by
  have he15 : e ≤ 15 := by
    by_contra h
    have : e = 16 := by omega
    subst this
    norm_num at hc
    omega
  have hpow : 2 ^ e ≤ 2 ^ 15 := Nat.pow_le_pow_right (by norm_num) he15
  norm_num at hpow
  refine ⟨by omega, by rw [hc, pow_succ]; ring, ?_⟩
  unfold _max_bucket_count
  omega

/-- One `insert` call keeps the invariant `InsInv` and returns, as long as the number of
calls stays at most `4915200` (the load limit of capacity `6553600`). -/
theorem insInv_step (hash : K → Nat) (ops : List (K × V)) (m : HASH_MAP K V) (p : K × V)
    (hinv : InsInv hash ops m) (hp : p.1 ≠ default) (hlen : ops.length + 1 ≤ 4915200) :
    ∃ m2, insert hash m p = some m2 ∧ InsInv hash (ops ++ [p]) m2 := by
  obtain ⟨⟨e, he, hcap⟩, hlast, hchain, hocc, hload, hsize, hslots⟩ := hinv
  have hpos : 0 < m._bucket_count := by rw [hcap]; positivity
  have hge : 100 ≤ m._bucket_count := by
    rw [hcap]; have := Nat.one_le_two_pow (n := e); omega
  obtain ⟨j, hj, hjlt, hje, hins⟩ := insert_eq hash m p
    (hasEmpty_of_occupied_lt m (by omega))
  have hchain1 : Chain hash (Function.update m.buckets j ⟨p.1, p.2⟩) m._bucket_count :=
    hchain.update_probe ⟨p.1, p.2⟩ hp hpos hj
  have hocc1 : occupied (Function.update m.buckets j ⟨p.1, p.2⟩) m._bucket_count
      = m.array_size + 1 := by
    have := occupied_update m.buckets hjlt ⟨p.1, p.2⟩
    rw [if_neg (by simp [hje]), if_pos hp] at this
    omega
  have hslots1 : ∀ k, k ≠ default →
      slotsWith (Function.update m.buckets j ⟨p.1, p.2⟩) m._bucket_count k
        = callsWith (ops ++ [p]) k := by
    intro k hk
    have := slotsWith_update m.buckets hjlt ⟨p.1, p.2⟩ k
    rw [if_neg (by rw [hje]; exact fun h => hk h.symm)] at this
    rw [callsWith_append_single, ← hslots k hk]
    simpa using this
  rw [hins]
  unfold growthCheck loadExceeded
  by_cases hgrow : 3 * m._bucket_count < 4 * (m.array_size + 1)
  · simp only [hgrow, decide_True, if_true]
    obtain ⟨he2, hcap2, hdouble⟩ := pow_bound_of_lt he hcap (by omega)
    have hne : m._bucket_count ≠ _max_bucket_count := by
      intro h; rw [h] at hdouble; omega
    obtain ⟨t, ht, hreb⟩ := rehash_spec hash
      ⟨m._bucket_count, m.array_size + 1, Function.update m.buckets j ⟨p.1, p.2⟩⟩ hne
    simp only [grownCount_of_double hdouble] at ht hreb
    rw [Nat.mul_div_cancel _ (by norm_num : 0 < 2)] at hreb
    obtain ⟨hc2, ho2, hs2, _⟩ := hreb
    refine ⟨_, ht, ⟨e + 1, he2, hcap2⟩, Or.inr ?_, hc2, ?_, ?_, ?_, ?_⟩
    · simp only; omega
    · simp only; rw [ho2, hocc1]
    · simp only; omega
    · simp only [List.length_append, List.length_singleton]; omega
    · intro k hk
      simp only
      rw [hs2 k hk, hslots1 k hk]
  · simp only [hgrow, decide_False, if_false]
    refine ⟨_, rfl, ⟨e, he, hcap⟩, ?_, hchain1, hocc1, ?_, ?_, hslots1⟩
    · simp only
      rcases hlast with h | h
      · exact Or.inl h
      · exact Or.inr (by omega)
    · simp only; omega
    · simp only [List.length_append, List.length_singleton]; omega

theorem insInv_new (hash : K → Nat) : InsInv hash [] (HASH_MAP.new : HASH_MAP K V) := by
  obtain ⟨hc, ho, hs, _⟩ := rebuildInv_zero hash (newArray : Nat → HASH_NODE K V) 100
  refine ⟨⟨0, by omega, rfl⟩, Or.inl rfl, hc, ?_, ?_, rfl, ?_⟩
  · show occupied newArray 100 = 0
    rw [ho]; rfl
  · show 4 * 0 ≤ 3 * 100
    omega
  · intro k hk
    show slotsWith newArray 100 k = _
    rw [hs k hk]; rfl

/-- A run of `insert` calls from a map satisfying `InsInv` returns and keeps `InsInv`. -/
theorem insertAll_spec (hash : K → Nat) :
    ∀ (ops done : List (K × V)) (m : HASH_MAP K V), InsInv hash done m →
      (∀ p, p ∈ ops → p.1 ≠ default) → done.length + ops.length ≤ 4915200 →
      ∃ m2, insertAll hash m ops = some m2 ∧ InsInv hash (done ++ ops) m2 := by
  intro ops
  induction ops with
  | nil => intro done m hinv _ _; exact ⟨m, rfl, by simpa using hinv⟩
  | cons p rest ih =>
    intro done m hinv hkeys hlen
    simp only [List.length_cons] at hlen
    obtain ⟨m1, hm1, hinv1⟩ := insInv_step hash done m p hinv
      (hkeys p (List.mem_cons_self _ _)) (by omega)
    obtain ⟨m2, hm2, hinv2⟩ := ih (done ++ [p]) m1 hinv1
      (fun q hq => hkeys q (List.mem_cons_of_mem _ hq))
      (by simp only [List.length_append, List.length_singleton]; omega)
    refine ⟨m2, ?_, by simpa using hinv2⟩
    unfold insertAll at hm2 ⊢
    simp only [List.foldlM_cons, hm1, Option.bind_eq_bind, Option.some_bind]
    exact hm2

theorem count_default (hash : K → Nat) (m : HASH_MAP K V) (he : HasEmpty m) :
    count hash m default = some 0 := by
  obtain ⟨x, hx, hxe⟩ := he
  have hs := getStart_lt hash m default (by omega)
  obtain ⟨d, hd, hde, hbefore⟩ := first_empty_offset m.buckets _ x hs hx hxe
  unfold count
  rw [countLoop_spec default m.buckets _ _ 0 d hs hd hde hbefore, Nat.zero_add]
  congr 1
  rw [List.countP_eq_zero]
  intro t ht
  simpa using hbefore t (List.mem_range.mp ht)

theorem InsInv.hasEmpty {hash : K → Nat} {ops : List (K × V)} {m : HASH_MAP K V}
    (hinv : InsInv hash ops m) : HasEmpty m := by
  obtain ⟨⟨e, he, hcap⟩, _, _, hocc, hload, _, _⟩ := hinv
  have hge : 100 ≤ m._bucket_count := by
    rw [hcap]; have := Nat.one_le_two_pow (n := e); omega
  exact hasEmpty_of_occupied_lt m (by omega)

theorem InsInv.cap_lt_max {hash : K → Nat} {ops : List (K × V)} {m : HASH_MAP K V}
    (hinv : InsInv hash ops m) : m._bucket_count < _max_bucket_count := by
  obtain ⟨⟨e, he, hcap⟩, _⟩ := hinv
  have hpow : 2 ^ e ≤ 2 ^ 16 := Nat.pow_le_pow_right (by norm_num) he
  norm_num at hpow
  unfold _max_bucket_count
  omega

theorem callsWith_eq_zero_of_keys (ops : List (K × V)) (k : K)
    (hkeys : ∀ p, p ∈ ops → p.1 ≠ k) : callsWith ops k = 0 := by
  unfold callsWith
  rw [List.countP_eq_zero]
  intro p hp
  simpa using hkeys p hp

/-- In a map satisfying `InsInv`, `count(k)` returns the number of `insert` calls made with
key `k`. -/
theorem InsInv.count_eq {hash : K → Nat} {ops : List (K × V)} {m : HASH_MAP K V}
    (hinv : InsInv hash ops m) (hkeys : ∀ p, p ∈ ops → p.1 ≠ default) (k : K) :
    count hash m k = some (callsWith ops k) := by
  have he := hinv.hasEmpty
  obtain ⟨_, _, hchain, _, _, _, hslots⟩ := hinv
  by_cases hk : k = default
  · subst hk
    rw [count_default hash m he, callsWith_eq_zero_of_keys ops default hkeys]
  · rw [← hslots k hk]
    apply count_eq_slotsWith hash m k he
    intro x hx hxk
    have := hchain x hx (by rw [hxk]; exact hk)
    rwa [hxk] at this

/-- C3 (count duplicates): after any sequence `ops` of at most `4915200` `insert` calls with
non-default keys on a freshly constructed map (the capacity then stays below the maximum),
every call has returned, `size()` is the number of calls and `count(k)` is the number of
calls made with key `k`; one further `insert((k, v))` raises `size()` and `count(k)` by
exactly 1, and three further `insert` calls with the same key raise both by exactly 3. -/
theorem C3_insert_counts_duplicates (hash : K → Nat) (ops : List (K × V))
    (hkeys : ∀ p, p ∈ ops → p.1 ≠ default) (hlen : ops.length ≤ 4915200) :
    ∃ m, insertAll hash HASH_MAP.new ops = some m ∧
      m._bucket_count < _max_bucket_count ∧ m.size = ops.length ∧
      (∀ k, count hash m k = some (callsWith ops k)) ∧
      (∀ k v, k ≠ default → ops.length + 1 ≤ 4915200 →
        ∃ m2, insert hash m (k, v) = some m2 ∧ m2.size = m.size + 1 ∧
          count hash m2 k = some (callsWith ops k + 1)) ∧
      (∀ k v1 v2 v3, k ≠ default → ops.length + 3 ≤ 4915200 →
        ∃ m3, insertAll hash m [(k, v1), (k, v2), (k, v3)] = some m3 ∧
          m3.size = m.size + 3 ∧ count hash m3 k = some (callsWith ops k + 3)) := by
  obtain ⟨m, hm, hinv⟩ := insertAll_spec hash ops [] HASH_MAP.new (insInv_new hash) hkeys
    (by simpa using hlen)
  rw [List.nil_append] at hinv
  have hsize : m.array_size = ops.length := hinv.2.2.2.2.2.1
  refine ⟨m, hm, hinv.cap_lt_max, hsize, hinv.count_eq hkeys, ?_, ?_⟩
  · intro k v hk hlen1
    obtain ⟨m2, hm2, hinv2⟩ := insInv_step hash ops m (k, v) hinv hk hlen1
    have hkeys2 : ∀ p, p ∈ ops ++ [(k, v)] → p.1 ≠ default := by
      intro p hp
      rcases List.mem_append.mp hp with h | h
      · exact hkeys p h
      · rw [List.mem_singleton.mp h]; exact hk
    refine ⟨m2, hm2, ?_, ?_⟩
    · have := hinv2.2.2.2.2.2.1
      simp only [List.length_append, List.length_singleton] at this
      simp only [HASH_MAP.size]; omega
    · rw [hinv2.count_eq hkeys2 k, callsWith_append_single]; simp
  · intro k v1 v2 v3 hk hlen3
    have hk3 : ∀ p, p ∈ [(k, v1), (k, v2), (k, v3)] → p.1 ≠ default := by
      intro p hp
      simp only [List.mem_cons, List.mem_singleton, List.not_mem_nil, or_false] at hp
      rcases hp with h | h | h <;> (rw [h]; exact hk)
    obtain ⟨m3, hm3, hinv3⟩ := insertAll_spec hash [(k, v1), (k, v2), (k, v3)] ops m hinv hk3
      (by simpa using hlen3)
    have hkeys3 : ∀ p, p ∈ ops ++ [(k, v1), (k, v2), (k, v3)] → p.1 ≠ default := by
      intro p hp
      rcases List.mem_append.mp hp with h | h
      · exact hkeys p h
      · exact hk3 p h
    refine ⟨m3, hm3, ?_, ?_⟩
    · have := hinv3.2.2.2.2.2.1
      simp only [List.length_append, List.length_cons, List.length_nil] at this
      simp only [HASH_MAP.size]; omega
    · rw [hinv3.count_eq hkeys3 k]
      unfold callsWith
      rw [List.countP_append]
      simp

/-- Witness for C3: the calls `insert((7, 1))`, `insert((8, 2))` on a fresh map (keys in
`Nat`, identity hash). -/
theorem C3_insert_counts_duplicates_witness :
    (∀ p, p ∈ [((7 : Nat), (1 : Nat)), (8, 2)] → p.1 ≠ default) ∧
    [((7 : Nat), (1 : Nat)), (8, 2)].length ≤ 4915200 ∧
    ∃ m, insertAll id HASH_MAP.new [((7 : Nat), (1 : Nat)), (8, 2)] = some m ∧
      m._bucket_count < _max_bucket_count ∧ m.size = [((7 : Nat), (1 : Nat)), (8, 2)].length ∧
      (∀ k, count id m k = some (callsWith [((7 : Nat), (1 : Nat)), (8, 2)] k)) ∧
      (∀ k v, k ≠ default → [((7 : Nat), (1 : Nat)), (8, 2)].length + 1 ≤ 4915200 →
        ∃ m2, insert id m (k, v) = some m2 ∧ m2.size = m.size + 1 ∧
          count id m2 k = some (callsWith [((7 : Nat), (1 : Nat)), (8, 2)] k + 1)) ∧
      (∀ k v1 v2 v3, k ≠ default → [((7 : Nat), (1 : Nat)), (8, 2)].length + 3 ≤ 4915200 →
        ∃ m3, insertAll id m [(k, v1), (k, v2), (k, v3)] = some m3 ∧
          m3.size = m.size + 3 ∧
          count id m3 k = some (callsWith [((7 : Nat), (1 : Nat)), (8, 2)] k + 3)) :=
  ⟨by decide, by decide,
    C3_insert_counts_duplicates id [(7, 1), (8, 2)] (by decide) (by decide)⟩

theorem cap_of_pow {e c : Nat} (hc : c = 100 * 2 ^ e) :
    (c < 200 → c = 100) ∧ (100 < c → c < 400 → c = 200) := by
  rcases e with _ | _ | e
  · norm_num at hc; omega
  · norm_num at hc; omega
  · have hpow : 2 ^ 2 ≤ 2 ^ (e + 1 + 1) := Nat.pow_le_pow_right (by norm_num) (by omega)
    norm_num at hpow
    omega

/-- C5 (load-factor trigger): on a map with capacity `C`, `2 * C` below the maximum, and an
empty slot, `insert` of a non-default key returns, leaves the capacity at `C` when
`(size() + 1) / C <= 0.75` and makes it `2 * C` when `(size() + 1) / C > 0.75`.  From a
freshly constructed map, any 75 `insert` calls with non-default keys leave
`bucket_count() == 100` and the 76th makes it `200`. -/
theorem C5_load_factor_trigger (hash : K → Nat) :
    (∀ (m : HASH_MAP K V) (p : K × V), HasEmpty m → p.1 ≠ default →
      m._bucket_count * 2 < _max_bucket_count →
      ∃ m2, insert hash m p = some m2 ∧ m2.size = m.size + 1 ∧
        (4 * (m.size + 1) ≤ 3 * m._bucket_count → m2.bucket_count = m._bucket_count) ∧
        (3 * m._bucket_count < 4 * (m.size + 1) → m2.bucket_count = 2 * m._bucket_count)) ∧
    (∀ (ops : List (K × V)) (p : K × V), (∀ q, q ∈ ops → q.1 ≠ default) → ops.length = 75 →
      p.1 ≠ default →
      ∃ m75 m76, insertAll hash (HASH_MAP.new : HASH_MAP K V) ops = some m75 ∧
        m75.bucket_count = 100 ∧ insert hash m75 p = some m76 ∧ m76.bucket_count = 200) := by
  constructor
  · intro m p he hp hdouble
    obtain ⟨j, hj, hjlt, hje, hins⟩ := insert_eq hash m p he
    rw [hins]
    unfold growthCheck loadExceeded
    by_cases hgrow : 3 * m._bucket_count < 4 * (m.array_size + 1)
    · simp only [hgrow, decide_True, if_true]
      have hne : m._bucket_count ≠ _max_bucket_count := by
        intro h; rw [h] at hdouble; omega
      obtain ⟨t, ht, _⟩ := rehash_spec hash
        ⟨m._bucket_count, m.array_size + 1, Function.update m.buckets j ⟨p.1, p.2⟩⟩ hne
      simp only [grownCount_of_double hdouble] at ht
      refine ⟨_, ht, rfl, ?_, ?_⟩
      · intro h; simp only [HASH_MAP.size] at h; omega
      · intro _; simp only [HASH_MAP.bucket_count]; omega
    · simp only [hgrow, decide_False, if_false]
      refine ⟨_, rfl, rfl, fun _ => rfl, ?_⟩
      intro h; simp only [HASH_MAP.size] at h; omega
  · intro ops p hkeys hlen hp
    obtain ⟨m75, hm75, hinv⟩ := insertAll_spec hash ops [] HASH_MAP.new (insInv_new hash) hkeys
      (by simp only [List.length_nil, hlen]; omega)
    rw [List.nil_append] at hinv
    obtain ⟨m76, hm76, hinv2⟩ := insInv_step hash ops m75 p hinv hp (by rw [hlen]; omega)
    refine ⟨m75, m76, hm75, ?_, hm76, ?_⟩
    · obtain ⟨⟨e, _, hcap⟩, hlast, _, _, _, hsize, _⟩ := hinv
      rw [hlen] at hsize
      rcases hlast with h | h
      · exact h
      · exact (cap_of_pow hcap).1 (by omega)
    · obtain ⟨⟨e, _, hcap⟩, hlast, _, _, hload, hsize, _⟩ := hinv2
      simp only [List.length_append, List.length_singleton, hlen] at hsize
      rcases hlast with h | h
      · omega
      · exact (cap_of_pow hcap).2 (by omega) (by omega)

/-- Witness for C5 on the fresh map and on the keys `1 .. 75` followed by `76` (keys in
`Nat`, identity hash). -/
theorem C5_load_factor_trigger_witness :
    (HasEmpty (HASH_MAP.new : HASH_MAP Nat Nat) ∧ (7 : Nat) ≠ default ∧
      (HASH_MAP.new : HASH_MAP Nat Nat)._bucket_count * 2 < _max_bucket_count ∧
      ∃ m2, insert id (HASH_MAP.new : HASH_MAP Nat Nat) (7, 1) = some m2 ∧
        m2.size = (HASH_MAP.new : HASH_MAP Nat Nat).size + 1 ∧
        (4 * ((HASH_MAP.new : HASH_MAP Nat Nat).size + 1)
            ≤ 3 * (HASH_MAP.new : HASH_MAP Nat Nat)._bucket_count →
          m2.bucket_count = (HASH_MAP.new : HASH_MAP Nat Nat)._bucket_count) ∧
        (3 * (HASH_MAP.new : HASH_MAP Nat Nat)._bucket_count
            < 4 * ((HASH_MAP.new : HASH_MAP Nat Nat).size + 1) →
          m2.bucket_count = 2 * (HASH_MAP.new : HASH_MAP Nat Nat)._bucket_count)) ∧
    ((∀ q, q ∈ (List.range 75).map (fun i => (i + 1, i)) → q.1 ≠ default) ∧
      ((List.range 75).map (fun i => (i + 1, i))).length = 75 ∧ (76 : Nat) ≠ default ∧
      ∃ m75 m76, insertAll id (HASH_MAP.new : HASH_MAP Nat Nat)
          ((List.range 75).map (fun i => (i + 1, i))) = some m75 ∧
        m75.bucket_count = 100 ∧ insert id m75 (76, 75) = some m76 ∧
        m76.bucket_count = 200) :=
  ⟨⟨new_hasEmpty, by decide, by decide,
      (C5_load_factor_trigger id).1 HASH_MAP.new (7, 1) new_hasEmpty (by decide) (by decide)⟩,
    ⟨by decide, by decide, by decide,
      (C5_load_factor_trigger id).2 ((List.range 75).map (fun i => (i + 1, i))) (76, 75)
        (by decide) (by decide) (by decide)⟩⟩

/-! ## Capacity growth -/

theorem rehash_total (hash : K → Nat) (m : HASH_MAP K V) :
    ∃ m2, rehash hash m = some m2 ∧ m2.array_size = m.array_size ∧
      m2._bucket_count =
        (if m._bucket_count = _max_bucket_count then m._bucket_count
         else grownCount m._bucket_count) := by
  by_cases hmax : m._bucket_count = _max_bucket_count
  · exact ⟨m, rehash_of_max hash m hmax, rfl, by rw [if_pos hmax]⟩
  · obtain ⟨t, ht, _⟩ := rehash_spec hash m hmax
    exact ⟨_, ht, rfl, by rw [if_neg hmax]⟩

/-- The growth check always returns; it keeps `array_size`, never lowers the capacity and,
from a capacity within the maximum, never exceeds the maximum. -/
theorem growthCheck_total (hash : K → Nat) (m : HASH_MAP K V)
    (hle : m._bucket_count ≤ _max_bucket_count) :
    ∃ m2, growthCheck hash m = some m2 ∧ m2.array_size = m.array_size ∧
      m._bucket_count ≤ m2._bucket_count ∧ m2._bucket_count ≤ _max_bucket_count := by
  unfold growthCheck
  by_cases hgrow : loadExceeded m = true
  · rw [if_pos hgrow]
    obtain ⟨m2, hm2, hsz, hcap⟩ := rehash_total hash m
    refine ⟨m2, hm2, hsz, ?_, ?_⟩
    · rw [hcap]; split
      · exact le_refl _
      · exact (grownCount_bounds hle).1
    · rw [hcap]; split
      · exact hle
      · exact (grownCount_bounds hle).2
  · rw [if_neg hgrow]
    exact ⟨m, rfl, rfl, le_refl _, hle⟩

theorem growthCheck_of_max (hash : K → Nat) (m : HASH_MAP K V)
    (h : m._bucket_count = _max_bucket_count) : growthCheck hash m = some m := by
  unfold growthCheck
  split
  · exact rehash_of_max hash m h
  · rfl

theorem atFuel_hit (hash : K → Nat) (n : Nat) (m : HASH_MAP K V) (k : K) (j : Nat)
    (hp : probe (stopEmptyOrKey k) m.buckets m._bucket_count m._bucket_count
      (getStart hash m k) = some j)
    (hk : (m.buckets j).first = k) : atFuel hash (n + 1) m k = some (m, j) := by
  simp only [atFuel, hp, if_pos hk]

theorem atFuel_miss (hash : K → Nat) (n : Nat) (m : HASH_MAP K V) (k : K) (j : Nat)
    (hp : probe (stopEmptyOrKey k) m.buckets m._bucket_count m._bucket_count
      (getStart hash m k) = some j)
    (hk : (m.buckets j).first ≠ k) :
    atFuel hash (n + 1) m k =
      (growthCheck hash ⟨m._bucket_count, m.array_size + 1,
        Function.update m.buckets j ⟨k, (m.buckets j).second⟩⟩).bind
        (fun m2 => atFuel hash n m2 k) := by
  simp only [atFuel, hp, if_neg hk]
  cases growthCheck hash ⟨m._bucket_count, m.array_size + 1,
        Function.update m.buckets j ⟨k, (m.buckets j).second⟩⟩ <;> rfl

/-- A deeper recursion bound never changes a result of `at`. -/
theorem atFuel_mono (hash : K → Nat) (k : K) :
    ∀ (n : Nat) (m : HASH_MAP K V) (r : HASH_MAP K V × Nat),
      atFuel hash n m k = some r → atFuel hash (n + 1) m k = some r := by
  intro n
  induction n with
  | zero => intro m r h; simp [atFuel] at h
  | succ n ih =>
    intro m r h
    cases hp : probe (stopEmptyOrKey k) m.buckets m._bucket_count m._bucket_count
        (getStart hash m k) with
    | none => simp [atFuel, hp] at h
    | some j =>
      by_cases hk : (m.buckets j).first = k
      · rw [atFuel_hit hash n m k j hp hk] at h
        rw [atFuel_hit hash (n + 1) m k j hp hk]
        exact h
      · rw [atFuel_miss hash n m k j hp hk] at h
        rw [atFuel_miss hash (n + 1) m k j hp hk]
        cases hg : growthCheck hash ⟨m._bucket_count, m.array_size + 1,
            Function.update m.buckets j ⟨k, (m.buckets j).second⟩⟩ with
        | none => rw [hg] at h; cases h
        | some m2 =>
          rw [hg] at h
          rw [Option.some_bind] at h ⊢
          exact ih m2 r h

/-- The capacity after `at(k)` is never below the capacity before and, starting within the
maximum, never above the maximum. -/
theorem atFuel_cap (hash : K → Nat) (k : K) :
    ∀ (n : Nat) (m : HASH_MAP K V) (r : HASH_MAP K V × Nat),
      m._bucket_count ≤ _max_bucket_count → atFuel hash n m k = some r →
      m._bucket_count ≤ r.1._bucket_count ∧ r.1._bucket_count ≤ _max_bucket_count := by
  intro n
  induction n with
  | zero => intro m r _ h; simp [atFuel] at h
  | succ n ih =>
    intro m r hle h
    cases hp : probe (stopEmptyOrKey k) m.buckets m._bucket_count m._bucket_count
        (getStart hash m k) with
    | none => simp [atFuel, hp] at h
    | some j =>
      by_cases hk : (m.buckets j).first = k
      · rw [atFuel_hit hash n m k j hp hk] at h
        cases h
        exact ⟨le_refl _, hle⟩
      · rw [atFuel_miss hash n m k j hp hk] at h
        obtain ⟨m2, hm2, _, hlo, hhi⟩ := growthCheck_total hash
          ⟨m._bucket_count, m.array_size + 1,
            Function.update m.buckets j ⟨k, (m.buckets j).second⟩⟩ hle
        rw [hm2, Option.some_bind] at h
        obtain ⟨h1, h2⟩ := ih m2 r hhi h
        exact ⟨le_trans hlo h1, h2⟩

/-- When the scan for `k` stops at a slot holding `k`, `at(k)` returns that slot and leaves
the map unchanged. -/
theorem atFuel_of_firstHit (hash : K → Nat) (n : Nat) (m : HASH_MAP K V) (k : K) (j : Nat)
    (hf : FirstHit m.buckets m._bucket_count (getStart hash m k) k j) :
    atFuel hash (n + 1) m k = some (m, j) := by
  have hp := probe_of_firstHit hf (getStart_lt hash m k (by have := hf.lt; omega))
  obtain ⟨_, _, _, hk, _⟩ := hf
  exact atFuel_hit hash n m k j hp hk

/-- After the key write of `at(k)` the scan for `k` stops at the written slot. -/
theorem firstHit_after_write (hash : K → Nat) (m : HASH_MAP K V) (k : K) (v : V) (j : Nat)
    (hpos : 0 < m._bucket_count)
    (hp : probe (stopEmptyOrKey k) m.buckets m._bucket_count m._bucket_count
      (getStart hash m k) = some j) :
    FirstHit (Function.update m.buckets j ⟨k, v⟩) m._bucket_count (getStart hash m k) k j := by
  have hs := getStart_lt hash m k hpos
  exact firstHit_of_probe hs
    (probe_update_hit _ _ _ _ j ⟨k, v⟩ hs hp (stopEmptyOrKey_of_key k _ rfl)) (by simp)

theorem empty_of_miss (k : K) (b : Nat → HASH_NODE K V) {cap i j : Nat} (hi : i < cap)
    (hp : probe (stopEmptyOrKey k) b cap cap i = some j) (hk : (b j).first ≠ k) :
    (b j).first = default := by
  obtain ⟨_, _, _, hstop, _⟩ := probe_eq_some _ _ _ _ _ hi hp
  simp only [stopEmptyOrKey, Bool.or_eq_true, decide_eq_true_eq] at hstop
  rcases hstop with h | h
  · exact h
  · exact absurd h hk

/-- With an empty slot, a capacity within the maximum and a non-default key, `at(k)` returns
after at most two recursive calls. -/
theorem atFuel_total (hash : K → Nat) (m : HASH_MAP K V) (k : K) (he : HasEmpty m)
    (hle : m._bucket_count ≤ _max_bucket_count) (hk : k ≠ default) :
    ∃ r, atFuel hash 3 m k = some r := by
  have hpos := he.pos
  have hs := getStart_lt hash m k hpos
  obtain ⟨j1, hp1⟩ := probe_key_of_hasEmpty hash m k he
  have hj1lt := probe_lt _ _ _ _ _ hs hp1
  by_cases hk1 : (m.buckets j1).first = k
  · exact ⟨_, atFuel_hit hash 2 m k j1 hp1 hk1⟩
  rw [atFuel_miss hash 2 m k j1 hp1 hk1]
  have hf1 := firstHit_after_write hash m k (m.buckets j1).second j1 hpos hp1
  by_cases hsame : growthCheck hash ⟨m._bucket_count, m.array_size + 1,
      Function.update m.buckets j1 ⟨k, (m.buckets j1).second⟩⟩ =
      some ⟨m._bucket_count, m.array_size + 1,
        Function.update m.buckets j1 ⟨k, (m.buckets j1).second⟩⟩
  · rw [hsame, Option.some_bind]
    exact ⟨_, atFuel_of_firstHit hash 1 _ k j1 hf1⟩
  have hmax : m._bucket_count ≠ _max_bucket_count := by
    intro h; exact hsame (growthCheck_of_max hash _ h)
  have hgrow : growthCheck hash ⟨m._bucket_count, m.array_size + 1,
      Function.update m.buckets j1 ⟨k, (m.buckets j1).second⟩⟩ =
      rehash hash ⟨m._bucket_count, m.array_size + 1,
        Function.update m.buckets j1 ⟨k, (m.buckets j1).second⟩⟩ := by
    unfold growthCheck
    split
    · rfl
    · exfalso; apply hsame; unfold growthCheck; rw [if_neg (by assumption)]
  obtain ⟨t, ht, hreb⟩ := rehash_spec hash ⟨m._bucket_count, m.array_size + 1,
      Function.update m.buckets j1 ⟨k, (m.buckets j1).second⟩⟩ hmax
  rw [hgrow, ht, Option.some_bind]
  simp only at hreb
  have hg := grownCount_bounds hle
  have hgpos : 0 < grownCount m._bucket_count := by omega
  have he2 : HasEmpty (⟨grownCount m._bucket_count, m.array_size + 1, t⟩ : HASH_MAP K V) := by
    apply hasEmpty_of_occupied_lt
    show occupied t (grownCount m._bucket_count) < grownCount m._bucket_count
    rw [hreb.2.1]
    exact lt_of_le_of_lt (occupied_le _ _) (Nat.div_lt_self hgpos (by norm_num))
  obtain ⟨j2, hp2⟩ := probe_key_of_hasEmpty hash _ k he2
  by_cases hk2 : (t j2).first = k
  · exact ⟨_, atFuel_hit hash 1 _ k j2 hp2 hk2⟩
  rw [atFuel_miss hash 1 _ k j2 hp2 hk2]
  have hgmax : grownCount m._bucket_count = _max_bucket_count := by
    by_contra hne
    have hdouble : m._bucket_count * 2 < _max_bucket_count := by
      unfold grownCount at hne
      by_contra hnd
      rw [if_neg hnd, if_pos (lt_of_le_of_ne hle hmax)] at hne
      exact hne rfl
    rw [grownCount_of_double hdouble, Nat.mul_div_cancel _ (by norm_num : 0 < 2)] at hreb
    obtain ⟨i, hi, hik, hfa⟩ := exists_firstInAddressOrder
      (Function.update m.buckets j1 ⟨k, (m.buckets j1).second⟩) m._bucket_count j1 k hj1lt
      (by simp)
    obtain ⟨j, hfj, _⟩ := hreb.2.2.2 i (by omega) (by rw [hik]; exact hk) hfa
    rw [hik] at hfj
    have hp3 := probe_of_firstHit hfj (Nat.mod_lt _ (by omega))
    simp only [grownCount_of_double hdouble, getStart] at hp2
    rw [hp3] at hp2
    cases hp2
    obtain ⟨_, _, _, hkk, _⟩ := hfj
    exact hk2 hkk
  rw [growthCheck_of_max hash _ hgmax, Option.some_bind]
  exact ⟨_, atFuel_of_firstHit hash 0 _ k j2
    (firstHit_after_write hash ⟨grownCount m._bucket_count, m.array_size + 1, t⟩ k
      (t j2).second j2 hgpos hp2)⟩

theorem insert_cap (hash : K → Nat) (m m2 : HASH_MAP K V) (p : K × V)
    (hle : m._bucket_count ≤ _max_bucket_count) (h : insert hash m p = some m2) :
    m._bucket_count ≤ m2._bucket_count ∧ m2._bucket_count ≤ _max_bucket_count ∧
      m2.array_size = m.array_size + 1 := by
  unfold insert at h
  cases hp : probe stopEmpty m.buckets m._bucket_count m._bucket_count
      (getStart hash m p.1) with
  | none => rw [hp] at h; cases h
  | some j =>
    rw [hp] at h
    simp only at h
    obtain ⟨m3, hm3, hsz, hlo, hhi⟩ := growthCheck_total hash
      ⟨m._bucket_count, m.array_size + 1, Function.update m.buckets j ⟨p.1, p.2⟩⟩ hle
    rw [hm3] at h
    cases h
    exact ⟨hlo, hhi, hsz⟩

theorem insert_total (hash : K → Nat) (m : HASH_MAP K V) (p : K × V) (he : HasEmpty m)
    (hle : m._bucket_count ≤ _max_bucket_count) : ∃ m2, insert hash m p = some m2 := by
  obtain ⟨j, _, _, _, hins⟩ := insert_eq hash m p he
  obtain ⟨m2, hm2, _⟩ := growthCheck_total hash
    ⟨m._bucket_count, m.array_size + 1, Function.update m.buckets j ⟨p.1, p.2⟩⟩ hle
  exact ⟨m2, by rw [hins, hm2]⟩

theorem insert_or_assign_cap (hash : K → Nat) (m : HASH_MAP K V) (p : K × V)
    (r : HASH_MAP K V × Nat × Bool) (h : insert_or_assign hash m p = some r) :
    r.1._bucket_count = m._bucket_count ∧ r.1.array_size = m.array_size + 1 := by
  unfold insert_or_assign at h
  cases hp : probe (stopEmptyOrKey p.1) m.buckets m._bucket_count m._bucket_count
      (getStart hash m p.1) with
  | none => rw [hp] at h; cases h
  | some j =>
    rw [hp] at h
    cases h
    exact ⟨rfl, rfl⟩

theorem rehash_cap_formula {c : Nat} (hle : c ≤ _max_bucket_count) :
    (if c = _max_bucket_count then c else grownCount c) =
      (if 2 * c < _max_bucket_count then 2 * c else _max_bucket_count) := by
  unfold grownCount _max_bucket_count at *
  split_ifs <;> omega

/-- C6 (growth ceiling): for a map whose capacity `C` is at most the maximum, `rehash()`
returns with capacity `2 * C` when `2 * C` is below the maximum and the maximum otherwise,
and leaves the whole map unchanged when `C` is the maximum; the capacity after `insert`,
`insert_or_assign` or `at`/`operator[]` is never smaller than `C` and never exceeds the
maximum, and with an empty slot in the map each of these calls returns (for `at` on a
non-default key). -/
theorem C6_growth_ceiling (hash : K → Nat) (m : HASH_MAP K V)
    (hle : m._bucket_count ≤ _max_bucket_count) :
    (∃ m2, rehash hash m = some m2 ∧
      m2.bucket_count =
        (if 2 * m._bucket_count < _max_bucket_count then 2 * m._bucket_count
         else _max_bucket_count) ∧
      m._bucket_count ≤ m2.bucket_count ∧ m2.bucket_count ≤ _max_bucket_count ∧
      (m._bucket_count = _max_bucket_count → m2 = m)) ∧
    (∀ p m2, insert hash m p = some m2 →
      m._bucket_count ≤ m2.bucket_count ∧ m2.bucket_count ≤ _max_bucket_count) ∧
    (∀ p r, insert_or_assign hash m p = some r →
      m._bucket_count ≤ r.1.bucket_count ∧ r.1.bucket_count ≤ _max_bucket_count) ∧
    (∀ n k r, atFuel hash n m k = some r →
      m._bucket_count ≤ r.1.bucket_count ∧ r.1.bucket_count ≤ _max_bucket_count) ∧
    (HasEmpty m →
      (∀ p, ∃ m2, insert hash m p = some m2) ∧
      (∀ p, ∃ r, insert_or_assign hash m p = some r) ∧
      (∀ k, k ≠ default → ∃ r, atFuel hash 3 m k = some r)) := by
  refine ⟨?_, ?_, ?_, ?_, ?_⟩
  · obtain ⟨m2, hm2, _, hcap⟩ := rehash_total hash m
    have hg := grownCount_bounds hle
    refine ⟨m2, hm2, ?_, ?_, ?_, ?_⟩
    · simp only [HASH_MAP.bucket_count, hcap]
      exact rehash_cap_formula hle
    · simp only [HASH_MAP.bucket_count, hcap]
      split
      · exact le_refl _
      · exact hg.1
    · simp only [HASH_MAP.bucket_count, hcap]
      split
      · exact hle
      · exact hg.2
    · intro hmax
      rw [rehash_of_max hash m hmax] at hm2
      cases hm2; rfl
  · intro p m2 h
    obtain ⟨h1, h2, _⟩ := insert_cap hash m m2 p hle h
    exact ⟨h1, h2⟩
  · intro p r h
    obtain ⟨h1, _⟩ := insert_or_assign_cap hash m p r h
    simp only [HASH_MAP.bucket_count, h1]
    exact ⟨le_refl _, hle⟩
  · intro n k r h
    exact atFuel_cap hash k n m r hle h
  · intro he
    refine ⟨fun p => insert_total hash m p he hle, ?_, fun k hk => atFuel_total hash m k he hle hk⟩
    intro p
    obtain ⟨j, hj⟩ := probe_key_of_hasEmpty hash m p.1 he
    exact ⟨_, insert_or_assign_eq hash m p.1 p.2 j hj⟩

/-- Witness for C6 on the freshly constructed map (keys in `Nat`, identity hash). -/
theorem C6_growth_ceiling_witness :
    (HASH_MAP.new : HASH_MAP Nat Nat)._bucket_count ≤ _max_bucket_count ∧
    ((∃ m2, rehash id (HASH_MAP.new : HASH_MAP Nat Nat) = some m2 ∧
      m2.bucket_count =
        (if 2 * (HASH_MAP.new : HASH_MAP Nat Nat)._bucket_count < _max_bucket_count
         then 2 * (HASH_MAP.new : HASH_MAP Nat Nat)._bucket_count
         else _max_bucket_count) ∧
      (HASH_MAP.new : HASH_MAP Nat Nat)._bucket_count ≤ m2.bucket_count ∧
      m2.bucket_count ≤ _max_bucket_count ∧
      ((HASH_MAP.new : HASH_MAP Nat Nat)._bucket_count = _max_bucket_count →
        m2 = HASH_MAP.new)) ∧
    (∀ p m2, insert id (HASH_MAP.new : HASH_MAP Nat Nat) p = some m2 →
      (HASH_MAP.new : HASH_MAP Nat Nat)._bucket_count ≤ m2.bucket_count ∧
      m2.bucket_count ≤ _max_bucket_count) ∧
    (∀ p r, insert_or_assign id (HASH_MAP.new : HASH_MAP Nat Nat) p = some r →
      (HASH_MAP.new : HASH_MAP Nat Nat)._bucket_count ≤ r.1.bucket_count ∧
      r.1.bucket_count ≤ _max_bucket_count) ∧
    (∀ n k r, atFuel id n (HASH_MAP.new : HASH_MAP Nat Nat) k = some r →
      (HASH_MAP.new : HASH_MAP Nat Nat)._bucket_count ≤ r.1.bucket_count ∧
      r.1.bucket_count ≤ _max_bucket_count) ∧
    (HasEmpty (HASH_MAP.new : HASH_MAP Nat Nat) →
      (∀ p, ∃ m2, insert id (HASH_MAP.new : HASH_MAP Nat Nat) p = some m2) ∧
      (∀ p, ∃ r, insert_or_assign id (HASH_MAP.new : HASH_MAP Nat Nat) p = some r) ∧
      (∀ k, k ≠ default → ∃ r, atFuel id 3 (HASH_MAP.new : HASH_MAP Nat Nat) k = some r))) :=
  ⟨by decide, C6_growth_ceiling id HASH_MAP.new (by decide)⟩

/-! ## `rehash` at the capacity ceiling -/

/-- When every occupied old slot `i` already sits at its start index for the new capacity,
the rebuild loop over the old slots `0 .. n-1` copies exactly these slots, each to its own
index; old slots from `n` on are not copied. -/
theorem rehashLoop_identity (hash : K → Nat) (old : Nat → HASH_NODE K V) (newCap : Nat) :
    ∀ n, n ≤ newCap →
      (∀ i, i < n → (old i).first ≠ default → hash (old i).first % newCap = i) →
      rehashLoop hash old newCap n newArray =
        some (fun i => if i < n ∧ (old i).first ≠ default then old i else HASH_NODE.blank) := by
  intro n
  induction n with
  | zero =>
    intro _ _
    simp only [rehashLoop]
    congr 1
  | succ n ih =>
    intro hn hhome
    rw [rehashLoop, ih (by omega) (fun i hi => hhome i (by omega)), Option.some_bind]
    by_cases hkey : (old n).first = default
    · simp only [reinsert, hkey, if_true]
      congr 1
      funext i
      by_cases hin : i = n
      · subst hin; simp [hkey]
      · have : (i < n + 1) = (i < n) := by
          apply propext; constructor <;> intro h <;> omega
        simp only [this]
    · have hstop : stopEmpty ((fun i => if i < n ∧ (old i).first ≠ default then old i
          else (HASH_NODE.blank : HASH_NODE K V)) n) = true := by
        simp [stopEmpty, HASH_NODE.blank]
      simp only [reinsert, hkey, if_false, hhome n (by omega) hkey]
      rw [probe_now stopEmpty _ newCap newCap n (by omega) hstop, Option.map_some']
      congr 1
      funext i
      by_cases hin : i = n
      · subst hin; simp [hkey]
      · have : (i < n + 1) = (i < n) := by
          apply propext; constructor <;> intro h <;> omega
        simp only [Function.update_noteq hin, this]


/-! ## Sequential keys under the identity hash -/

theorem seqTable_succ (n : Nat) :
    Function.update (seqTable n) (n + 1) ⟨n + 1, 0⟩ = seqTable (n + 1) := by
  funext i
  by_cases hi : i = n + 1
  · subst hi; simp [seqTable]
  · rw [Function.update_noteq hi]
    simp only [seqTable]
    by_cases h : 1 ≤ i ∧ i ≤ n
    · rw [if_pos h, if_pos ⟨h.1, by omega⟩]
    · rw [if_neg h, if_neg (by omega)]

theorem seqTable_first (n i : Nat) :
    (seqTable n i).first = if 1 ≤ i ∧ i ≤ n then i else 0 := by
  simp only [seqTable]
  split <;> rfl

/-- A rebuild of `seqTable n` that reads at least the old slots `0 .. n` reproduces it. -/
theorem rehashLoop_seqTable (n g r : Nat) (hr : r ≤ g) (hn : n < r) :
    rehashLoop id (seqTable n) g r newArray = some (seqTable n) := by
  rw [rehashLoop_identity id (seqTable n) g r hr]
  · congr 1
    funext i
    by_cases h : 1 ≤ i ∧ i ≤ n
    · have hne : (seqTable n i).first ≠ default := by
        rw [seqTable_first, if_pos h]; show i ≠ 0; omega
      rw [if_pos ⟨by omega, hne⟩]
    · have he : (seqTable n i).first = default := by
        rw [seqTable_first, if_neg h]; rfl
      rw [if_neg (by simp [he])]
      simp only [seqTable, if_neg h]
  · intro i hi hocc
    rw [seqTable_first] at hocc ⊢
    by_cases h : 1 ≤ i ∧ i ≤ n
    · rw [if_pos h]; show i % g = i; exact Nat.mod_eq_of_lt (by omega)
    · rw [if_neg h] at hocc; exact absurd rfl hocc

theorem grownCount_half_gt {c n : Nat} (hc : n < c) (hn : n < 5000000) :
    n < grownCount c / 2 := by
  unfold grownCount _max_bucket_count
  split_ifs <;> omega

theorem grownCount_ge (c : Nat) : c ≤ grownCount c := by
  unfold grownCount _max_bucket_count
  split_ifs <;> omega

/-- `insert((n + 1, 0))` on the map holding the keys `1 .. n` in the slots `1 .. n`. -/
theorem insert_seq (c n : Nat) (hc : n + 1 < c) (h5 : 5 ≤ c) (hn : n + 1 < 5000000) :
    ∃ c2, insert id (⟨c, n, seqTable n⟩ : HASH_MAP Nat Nat) (n + 1, 0)
        = some ⟨c2, n + 1, seqTable (n + 1)⟩ ∧ n + 1 + 1 < c2 ∧ 5 ≤ c2 := by
  have hstart : getStart id (⟨c, n, seqTable n⟩ : HASH_MAP Nat Nat) (n + 1) = n + 1 :=
    Nat.mod_eq_of_lt hc
  have hp : probe stopEmpty (seqTable n) c c
      (getStart id (⟨c, n, seqTable n⟩ : HASH_MAP Nat Nat) (n + 1)) = some (n + 1) := by
    rw [hstart]
    apply probe_now _ _ _ _ _ (by omega)
    simp only [stopEmpty, seqTable_first, decide_eq_true_eq]
    rw [if_neg (by omega)]; rfl
  simp only [insert, hp, seqTable_succ]
  unfold growthCheck
  by_cases hgrow : loadExceeded (⟨c, n + 1, seqTable (n + 1)⟩ : HASH_MAP Nat Nat) = true
  · rw [if_pos hgrow]
    by_cases hmax : c = _max_bucket_count
    · refine ⟨c, rehash_of_max id _ hmax, ?_, h5⟩
      rw [hmax]; unfold _max_bucket_count; omega
    · have hhalf := grownCount_half_gt hc hn
      have hdiv := Nat.div_mul_le_self (grownCount c) 2
      have hge := grownCount_ge c
      refine ⟨grownCount c, ?_, by omega, by omega⟩
      simp only [rehash, if_neg hmax]
      rw [rehashLoop_seqTable (n + 1) (grownCount c) (grownCount c / 2) (Nat.div_le_self _ _)
        hhalf]
      rfl
  · rw [if_neg hgrow]
    refine ⟨c, rfl, ?_, h5⟩
    simp only [loadExceeded, decide_eq_true_eq] at hgrow
    omega

theorem seqOps_succ (n : Nat) : seqOps (n + 1) = seqOps n ++ [(n + 1, 0)] := by
  simp [seqOps, List.range_succ]

theorem seqTable_zero : seqTable 0 = newArray := by
  funext i
  simp only [seqTable, newArray]
  rw [if_neg (by omega)]

/-- The calls `insert((1, 0))`, ..., `insert((n, 0))` on a fresh map put key `i` in slot
`i`. -/
theorem insertAll_seq :
    ∀ n, n < 5000000 → ∃ c, insertAll id (HASH_MAP.new : HASH_MAP Nat Nat) (seqOps n)
      = some ⟨c, n, seqTable n⟩ ∧ n + 1 < c ∧ 5 ≤ c := by
  intro n
  induction n with
  | zero =>
    intro _
    refine ⟨100, ?_, by omega, by omega⟩
    rw [seqTable_zero]; rfl
  | succ n ih =>
    intro hn
    obtain ⟨c, hc, hlt, h5⟩ := ih (by omega)
    obtain ⟨c2, hc2, hlt2, h52⟩ := insert_seq c n hlt h5 hn
    refine ⟨c2, ?_, hlt2, h52⟩
    unfold insertAll at hc ⊢
    rw [seqOps_succ, List.foldlM_append, hc]
    simp only [Option.bind_eq_bind, Option.some_bind, List.foldlM_cons, List.foldlM_nil]
    rw [hc2]; rfl

theorem seqOps_keys (n : Nat) : ∀ p, p ∈ seqOps n → p.1 ≠ default := by
  intro p hp
  simp only [seqOps, List.mem_map, List.mem_range] at hp
  obtain ⟨i, _, rfl⟩ := hp
  show i + 1 ≠ 0
  omega

theorem seqOps_length (n : Nat) : (seqOps n).length = n := by
  simp [seqOps]

/-- `seventyFive` is the map reached from a fresh map by `insert((i, 0))`, `i = 1 .. 75`. -/
theorem seventyFive_reached :
    insertAll id (HASH_MAP.new : HASH_MAP Nat Nat) (seqOps 75) = some seventyFive := by
  obtain ⟨c, hc, _⟩ := insertAll_seq 75 (by omega)
  obtain ⟨m, hm, hinv⟩ := insertAll_spec id (seqOps 75) [] HASH_MAP.new (insInv_new id)
    (seqOps_keys 75) (by rw [seqOps_length]; simp)
  rw [hc] at hm ⊢
  cases hm
  obtain ⟨⟨e, _, hcap⟩, hlast, _⟩ := hinv
  simp only at hcap hlast
  have : c = 100 := by
    rcases hlast with h | h
    · exact h
    · exact (cap_of_pow hcap).1 (by omega)
  rw [this]; rfl

/-- `denseMap` is the map reached from a fresh map by `insert((i, 0))`,
`i = 1 .. 4915200`. -/
theorem denseMap_reached :
    insertAll id (HASH_MAP.new : HASH_MAP Nat Nat) (seqOps 4915200) = some denseMap := by
  obtain ⟨c, hc, _⟩ := insertAll_seq 4915200 (by omega)
  obtain ⟨m, hm, hinv⟩ := insertAll_spec id (seqOps 4915200) [] HASH_MAP.new (insInv_new id)
    (seqOps_keys 4915200) (by rw [seqOps_length]; simp)
  rw [hc] at hm ⊢
  cases hm
  obtain ⟨⟨e, he, hcap⟩, _, _, _, hload, _⟩ := hinv
  simp only at hcap hload
  have hpow : 2 ^ e ≤ 2 ^ 16 := Nat.pow_le_pow_right (by norm_num) he
  norm_num at hpow
  have : c = 6553600 := by omega
  rw [this]; rfl

/-! ## `at` across the clamping `rehash` -/

/-- The clamping `rehash()` of `denseMap` after `at` wrote key `6000000` into slot `6000000`:
only the old slots below `5000000` are copied, so the new key is dropped and the rebuilt
table is the table as it was before the write. -/
theorem rehash_denseMap_written :
    rehash id (⟨6553600, 4915201,
        Function.update denseMap.buckets 6000000 ⟨6000000, 0⟩⟩ : HASH_MAP Nat Nat) =
      some ⟨10000000, 4915201, denseMap.buckets⟩ := by
  have hg : grownCount 6553600 = 10000000 := by decide
  have hne : (6553600 : Nat) ≠ _max_bucket_count := by decide
  simp only [rehash, if_neg hne, hg]
  rw [rehashLoop_identity id _ 10000000 (10000000 / 2) (by omega)]
  · simp only [Option.map_some', Option.some.injEq, HASH_MAP.mk.injEq, true_and]
    funext i
    by_cases hi : i < 5000000
    · have hi6 : i ≠ 6000000 := by omega
      rw [Function.update_noteq hi6]
      by_cases hocc : (denseMap.buckets i).first = default
      · rw [if_neg (by simp [hocc])]
        simp only [denseMap] at hocc ⊢
        by_cases hr : 1 ≤ i ∧ i ≤ 4915200
        · rw [if_pos hr] at hocc
          exact absurd hocc (by show i ≠ 0; omega)
        · rw [if_neg hr]
      · rw [if_pos ⟨by omega, hocc⟩]
    · rw [if_neg (by omega)]
      simp only [denseMap]
      rw [if_neg (by omega)]
  · intro i hi hocc
    have hi6 : i ≠ 6000000 := by omega
    rw [Function.update_noteq hi6] at hocc ⊢
    simp only [denseMap] at hocc ⊢
    by_cases hr : 1 ≤ i ∧ i ≤ 4915200
    · rw [if_pos hr]
      show i % 10000000 = i
      exact Nat.mod_eq_of_lt (by omega)
    · rw [if_neg hr] at hocc
      exact absurd rfl hocc

/-- C7 fails on `denseMap`, the map reached from a fresh map by `insert((i, 0))` for
`i = 1 .. 4915200`: key `6000000` is absent and the map has an empty slot, yet
`at(6000000)` increases `size()` by 2.  The key is written to slot `6000000`, the growth
check runs `rehash()`, which clamps the capacity to the maximum and copies only the old slots
below `5000000`, so the key is lost and the recursive `at` call inserts it a second time. -/
theorem C7_at_inserts_twice :
    insertAll id (HASH_MAP.new : HASH_MAP Nat Nat) (seqOps 4915200) = some denseMap ∧
    HasEmpty denseMap ∧ (6000000 : Nat) ≠ default ∧
    contains id denseMap 6000000 = some false ∧
    ∀ n, 3 ≤ n → ∃ m2 j, atFuel id n denseMap 6000000 = some (m2, j) ∧
      m2.size = denseMap.size + 2 ∧ m2.bucket_count = _max_bucket_count ∧
      contains id m2 6000000 = some true := by
  have hstart : getStart id denseMap 6000000 = 6000000 := by decide
  have hp1 : probe (stopEmptyOrKey 6000000) denseMap.buckets denseMap._bucket_count
      denseMap._bucket_count (getStart id denseMap 6000000) = some 6000000 := by
    rw [hstart]
    exact probe_now _ _ _ _ _ (by decide) (by decide)
  refine ⟨denseMap_reached, ⟨0, by decide, by decide⟩, by decide, ?_, ?_⟩
  · simp only [contains, hp1, Option.map_some']
    decide
  · intro n hn
    obtain ⟨n, rfl⟩ : ∃ n2, n = n2 + 3 := ⟨n - 3, by omega⟩
    rw [atFuel_miss id (n + 2) denseMap 6000000 6000000 hp1 (by decide)]
    have hsec : (denseMap.buckets 6000000).second = 0 := by decide
    have hcap : denseMap._bucket_count = 6553600 := rfl
    have hsz : denseMap.array_size = 4915200 := rfl
    rw [hsec, hcap, hsz]
    have hgc : growthCheck id (⟨6553600, 4915200 + 1,
        Function.update denseMap.buckets 6000000 ⟨6000000, 0⟩⟩ : HASH_MAP Nat Nat) =
        rehash id ⟨6553600, 4915201,
          Function.update denseMap.buckets 6000000 ⟨6000000, 0⟩⟩ := by
      unfold growthCheck
      rw [if_pos (by decide)]
    rw [hgc, rehash_denseMap_written, Option.some_bind]
    have hp2 : probe (stopEmptyOrKey 6000000) denseMap.buckets 10000000 10000000
        (getStart id (⟨10000000, 4915201, denseMap.buckets⟩ : HASH_MAP Nat Nat) 6000000)
        = some 6000000 := by
      have : getStart id (⟨10000000, 4915201, denseMap.buckets⟩ : HASH_MAP Nat Nat) 6000000
          = 6000000 := by decide
      rw [this]
      exact probe_now _ _ _ _ _ (by decide) (by decide)
    rw [atFuel_miss id (n + 1) ⟨10000000, 4915201, denseMap.buckets⟩ 6000000 6000000 hp2
      (by decide)]
    rw [growthCheck_of_max id _ rfl, Option.some_bind]
    have hf := firstHit_after_write id ⟨10000000, 4915201, denseMap.buckets⟩ 6000000
      (denseMap.buckets 6000000).second 6000000 (by decide) hp2
    refine ⟨_, 6000000, atFuel_of_firstHit id n _ 6000000 6000000 hf, rfl, rfl, ?_⟩
    exact (find_of_firstHit id _ 6000000 6000000 (by decide) hf).2


/-! ## `insert_or_assign` and copy assignment on concrete maps -/

/-- C8 fails after two `insert_or_assign` calls with the same key on a fresh map: the second
call only overwrites the value, but `array_size++` has run in both calls, so `size()` is `2`
while one slot is occupied. -/
theorem C8_size_counts_assignment :
    ∃ m1 j m2, insert_or_assign id (HASH_MAP.new : HASH_MAP Nat Nat) (1, 5) = some (m1, j, true) ∧
      insert_or_assign id m1 (1, 6) = some (m2, j, false) ∧
      m2.size = 2 ∧ occupied m2.buckets m2._bucket_count = 1 :=
  ⟨⟨100, 1, Function.update newArray 1 ⟨1, 5⟩⟩, 1,
    ⟨100, 2, Function.update (Function.update newArray 1 ⟨1, 5⟩) 1 ⟨1, 6⟩⟩,
    rfl, rfl, rfl, by decide⟩

/-- C9 fails for `insert_or_assign` on `seventyFive`, the map reached from a fresh map by
`insert((i, 0))` for `i = 1 .. 75`: the load factor is `0.75` before; the
call inserts key `76` and returns from inside the loop, so the growth check is not run and
the map is left with 76 entries in 100 slots, load factor `0.76`.  (`insert` of the same key
grows the table to 200 slots.) -/
theorem C9_insert_or_assign_skips_growth :
    insertAll id (HASH_MAP.new : HASH_MAP Nat Nat) (seqOps 75) = some seventyFive ∧
    loadExceeded seventyFive = false ∧ seventyFive._bucket_count < _max_bucket_count ∧
    (∃ m2 j, insert_or_assign id seventyFive (76, 0) = some (m2, j, true) ∧
      m2.size = 76 ∧ m2.bucket_count = 100 ∧ loadExceeded m2 = true) ∧
    (insert id seventyFive (76, 0)).map (fun m2 => (m2.size, m2.bucket_count, loadExceeded m2))
      = some (76, 200, false) :=
  ⟨seventyFive_reached, by decide, by decide,
    ⟨⟨100, 76, Function.update seventyFive.buckets 76 ⟨76, 0⟩⟩, 76, rfl, rfl, rfl, by decide⟩,
    by decide⟩

theorem twoHome_reached :
    insertAll id (HASH_MAP.new : HASH_MAP Nat Nat) [(1, 5), (101, 6)] = some twoHome := rfl

/-- C10 fails on `twoHome`, the map reached from a fresh map by `insert((1, 5))` and
`insert((101, 6))`: the source contains keys `1` and `101`, which share the start
index `1`.  Copy assignment writes both to slot `1` without probing, so the copy keeps
`size() == 2` but holds one entry, and `contains(1)` is false in the copy. -/
theorem C10_copy_drops_colliding_key :
    insertAll id (HASH_MAP.new : HASH_MAP Nat Nat) [(1, 5), (101, 6)] = some twoHome ∧
    contains id twoHome 1 = some true ∧ contains id twoHome 101 = some true ∧
    (copyAssign id twoHome).bucket_count = twoHome.bucket_count ∧
    (copyAssign id twoHome).size = 2 ∧
    occupied (copyAssign id twoHome).buckets (copyAssign id twoHome)._bucket_count = 1 ∧
    contains id (copyAssign id twoHome) 1 = some false ∧
    findValue id (copyAssign id twoHome) 101 = some 6 := by
  refine ⟨twoHome_reached, by decide, by decide, rfl, rfl, by decide, by decide, by decide⟩

/-! ## Lookup consistency -/

/-- The value `count(k)` returns in terms of the scan of `find(k)`: at least `1` when that
scan stops at a slot holding `k`, and `0` when it stops at an empty slot. -/
theorem count_of_probe_key (hash : K → Nat) (m : HASH_MAP K V) (k : K) (j : Nat)
    (hpos : 0 < m._bucket_count)
    (hp : probe (stopEmptyOrKey k) m.buckets m._bucket_count m._bucket_count
      (getStart hash m k) = some j) (he : HasEmpty m) :
    ∃ c, count hash m k = some c ∧ ((m.buckets j).first ≠ default ↔ 1 ≤ c) := by
  have hs := getStart_lt hash m k hpos
  obtain ⟨u, hu, hju, hstop, hbefore⟩ := probe_eq_some _ _ _ _ _ hs hp
  obtain ⟨x, hx, hxe⟩ := he
  obtain ⟨d, hd, hde, hdbefore⟩ := first_empty_offset m.buckets _ x hs hx hxe
  refine ⟨_, countLoop_spec k m.buckets _ _ 0 d hs hd hde hdbefore, ?_⟩
  rw [Nat.zero_add]
  by_cases hje : (m.buckets j).first = default
  · have hdu : d = u := by
      have h1 : ¬ d < u := by
        intro hlt
        exact (stopEmptyOrKey_false k _ (hbefore d hlt)).1 hde
      have h2 : ¬ u < d := by
        intro hlt
        exact hdbefore u hlt (by rw [← hju]; exact hje)
      omega
    have hzero : (List.range d).countP
        (fun t => decide ((m.buckets ((getStart hash m k + t) % m._bucket_count)).first = k))
        = 0 := by
      rw [List.countP_eq_zero]
      intro t ht
      have htu : t < u := by rw [← hdu]; exact List.mem_range.mp ht
      simpa using (stopEmptyOrKey_false k _ (hbefore t htu)).2
    rw [hzero]
    simp [hje]
  · have hjk : (m.buckets j).first = k := by
      simp only [stopEmptyOrKey, Bool.or_eq_true, decide_eq_true_eq] at hstop
      rcases hstop with h | h
      · exact absurd h hje
      · exact h
    have hud : u < d := by
      by_contra hge
      have hdle : d ≤ u := by omega
      rcases Nat.lt_or_eq_of_le hdle with hlt | heq
      · exact (stopEmptyOrKey_false k _ (hbefore d hlt)).1 hde
      · rw [heq, ← hju] at hde; exact hje hde
    have hpos1 : 0 < (List.range d).countP
        (fun t => decide ((m.buckets ((getStart hash m k + t) % m._bucket_count)).first = k)) := by
      rw [List.countP_pos_iff]
      exact ⟨u, List.mem_range.mpr hud, by rw [← hju]; simpa using hjk⟩
    constructor
    · intro _; omega
    · intro _; exact hje

/-- C13 (lookup consistency): on a map with an empty slot, `contains(k)`, `count(k)` and
`find(k)` all return, and `contains(k)` is true exactly when `count(k) >= 1`, exactly when
`find(k)` is not `end()`; a slot returned by `find(k)` is the first slot in probe order from
`hash(k) mod capacity` whose key is `k`, and no empty slot precedes it on that path. -/
theorem C13_lookup_consistency (hash : K → Nat) (m : HASH_MAP K V) (k : K) (he : HasEmpty m) :
    ∃ b c j, contains hash m k = some b ∧ count hash m k = some c ∧ find hash m k = some j ∧
      (b = true ↔ 1 ≤ c) ∧ (b = true ↔ j ≠ m._bucket_count) ∧
      (j ≠ m._bucket_count → j < m._bucket_count ∧
        FirstHit m.buckets m._bucket_count (getStart hash m k) k j) := by
  have hpos := he.pos
  have hs := getStart_lt hash m k hpos
  obtain ⟨j, hp⟩ := probe_key_of_hasEmpty hash m k he
  have hjlt := probe_lt _ _ _ _ _ hs hp
  obtain ⟨c, hc, hiff⟩ := count_of_probe_key hash m k j hpos hp he
  refine ⟨decide ((m.buckets j).first ≠ default), c,
    (if (m.buckets j).first = default then m._bucket_count else j),
    by simp only [contains, hp, Option.map_some'], hc,
    by simp only [find, hp, Option.map_some'], ?_, ?_, ?_⟩
  · rw [decide_eq_true_eq]; exact hiff
  · rw [decide_eq_true_eq]
    by_cases hje : (m.buckets j).first = default
    · simp [hje]
    · simp only [hje, if_false, ne_eq, not_false_eq_true, true_iff]
      exact Nat.ne_of_lt hjlt
  · intro hne
    by_cases hje : (m.buckets j).first = default
    · rw [if_pos hje] at hne; exact absurd rfl hne
    · rw [if_neg hje]
      have hjk : (m.buckets j).first = k := by
        by_contra hnk
        exact hje (empty_of_miss k m.buckets hs hp hnk)
      exact ⟨hjlt, firstHit_of_probe hs hp hjk⟩

/-- Witness for C13 on the map holding the single entry `(7, 3)`. -/
theorem C13_lookup_consistency_witness :
    HasEmpty oneEntry ∧
    ∃ b c j, contains id oneEntry 7 = some b ∧ count id oneEntry 7 = some c ∧
      find id oneEntry 7 = some j ∧
      (b = true ↔ 1 ≤ c) ∧ (b = true ↔ j ≠ oneEntry._bucket_count) ∧
      (j ≠ oneEntry._bucket_count → j < oneEntry._bucket_count ∧
        FirstHit oneEntry.buckets oneEntry._bucket_count (getStart id oneEntry 7) 7 j) :=
  ⟨⟨0, by decide, by decide⟩, C13_lookup_consistency id oneEntry 7 ⟨0, by decide, by decide⟩⟩

/-! ## The freshly constructed map -/

theorem countLoop_now (k : K) (b : Nat → HASH_NODE K V) (cap fuel i acc : Nat)
    (hf : 0 < fuel) (h : (b i).first = default) : countLoop k b cap fuel i acc = some acc := by
  obtain ⟨f, rfl⟩ : ∃ f, fuel = f + 1 := ⟨fuel - 1, by omega⟩
  simp only [countLoop, h, if_true]

/-- C15 (empty on construction): a freshly constructed map has `size() == 0`,
`empty() == true`, `bucket_count() == 100`, and for every key `k`, the default key included,
`contains(k)` is false, `count(k)` is `0` and `find(k)` is `end()`. -/
theorem C15_empty_on_construction (hash : K → Nat) :
    (HASH_MAP.new : HASH_MAP K V).size = 0 ∧ (HASH_MAP.new : HASH_MAP K V).empty = true ∧
    (HASH_MAP.new : HASH_MAP K V).bucket_count = 100 ∧
    ∀ k : K, contains hash (HASH_MAP.new : HASH_MAP K V) k = some false ∧
      count hash (HASH_MAP.new : HASH_MAP K V) k = some 0 ∧
      find hash (HASH_MAP.new : HASH_MAP K V) k
        = some (HASH_MAP.new : HASH_MAP K V)._bucket_count := by
  refine ⟨rfl, rfl, rfl, ?_⟩
  intro k
  have hp : probe (stopEmptyOrKey k) (HASH_MAP.new : HASH_MAP K V).buckets
      (HASH_MAP.new : HASH_MAP K V)._bucket_count (HASH_MAP.new : HASH_MAP K V)._bucket_count
      (getStart hash (HASH_MAP.new : HASH_MAP K V) k)
      = some (getStart hash (HASH_MAP.new : HASH_MAP K V) k) :=
    probe_now _ _ _ _ _ (show 0 < 100 by omega) (stopEmptyOrKey_of_empty k _ rfl)
  refine ⟨?_, ?_, ?_⟩
  · simp only [contains, hp, Option.map_some']
    rw [new_buckets_first]; simp
  · exact countLoop_now k _ _ _ _ 0 (show 0 < 100 by omega) rfl
  · simp only [find, hp, Option.map_some']
    rw [new_buckets_first, if_pos rfl]

/-! ## `insert` without growth -/

/-- C16 (insert never overwrites): on a map with an empty slot, `insert((k, v))` with `k` not
the default key that does not trigger growth returns and changes exactly one slot: the first
empty slot `j` in probe order from `hash(k) mod capacity` becomes `(k, v)`.  Every other slot
keeps its key and value (whether or not an equal key is already stored), the capacity is
unchanged and `size()` increases by exactly 1. -/
theorem C16_insert_never_overwrites (hash : K → Nat) (m : HASH_MAP K V) (k : K) (v : V)
    (he : HasEmpty m) (hk : k ≠ default)
    (hno : 4 * (m.size + 1) ≤ 3 * m._bucket_count) :
    ∃ j u m2, insert hash m (k, v) = some m2 ∧
      u < m._bucket_count ∧ j = (getStart hash m k + u) % m._bucket_count ∧
      (m.buckets j).first = default ∧
      (∀ s, s < u → (m.buckets ((getStart hash m k + s) % m._bucket_count)).first ≠ default) ∧
      m2.buckets j = ⟨k, v⟩ ∧ m2.buckets j ≠ m.buckets j ∧
      (∀ i, i ≠ j → m2.buckets i = m.buckets i) ∧
      m2.size = m.size + 1 ∧ m2.bucket_count = m.bucket_count := by
  obtain ⟨j, hj, hjlt, hje, hins⟩ := insert_eq hash m (k, v) he
  have hs := getStart_lt hash m k he.pos
  obtain ⟨u, hu, hju, _, hbefore⟩ := probe_eq_some _ _ _ _ _ hs hj
  have hgc : growthCheck hash
      ⟨m._bucket_count, m.array_size + 1, Function.update m.buckets j ⟨k, v⟩⟩
      = some ⟨m._bucket_count, m.array_size + 1, Function.update m.buckets j ⟨k, v⟩⟩ := by
    unfold growthCheck loadExceeded
    rw [if_neg]
    simp only [HASH_MAP.size] at hno
    simp only [decide_eq_true_eq]
    omega
  refine ⟨j, u, ⟨m._bucket_count, m.array_size + 1, Function.update m.buckets j ⟨k, v⟩⟩,
    by rw [hins]; exact hgc, hu, hju, hje, ?_, by simp, ?_, ?_, rfl, rfl⟩
  · intro s hs2
    simpa [stopEmpty] using hbefore s hs2
  · simp only [Function.update_same]
    intro heq
    have : k = (m.buckets j).first := by rw [← heq]
    exact hk (by rw [this, hje])
  · intro i hi
    simp only [Function.update_noteq hi]

/-- Witness for C16: `insert((107, 9))` on the map holding `(7, 3)` in slot `7`. -/
theorem C16_insert_never_overwrites_witness :
    HasEmpty oneEntry ∧ (107 : Nat) ≠ default ∧
    4 * (oneEntry.size + 1) ≤ 3 * oneEntry._bucket_count ∧
    ∃ j u m2, insert id oneEntry (107, 9) = some m2 ∧
      u < oneEntry._bucket_count ∧ j = (getStart id oneEntry 107 + u) % oneEntry._bucket_count ∧
      (oneEntry.buckets j).first = default ∧
      (∀ s, s < u →
        (oneEntry.buckets ((getStart id oneEntry 107 + s) % oneEntry._bucket_count)).first
          ≠ default) ∧
      m2.buckets j = ⟨107, 9⟩ ∧ m2.buckets j ≠ oneEntry.buckets j ∧
      (∀ i, i ≠ j → m2.buckets i = oneEntry.buckets i) ∧
      m2.size = oneEntry.size + 1 ∧ m2.bucket_count = oneEntry.bucket_count :=
  ⟨⟨0, by decide, by decide⟩, by decide, by decide,
    C16_insert_never_overwrites id oneEntry 107 9 ⟨0, by decide, by decide⟩ (by decide)
      (by decide)⟩

/-! ## Termination of the probe scans -/

theorem offsets_succ_cons {cap i : Nat} (hi : i < cap) (n : Nat) :
    i :: offsets (next cap i) cap n = offsets i cap (n + 1) := by
  unfold offsets
  rw [List.range_succ_eq_map, List.map_cons, List.map_map]
  simp only [Nat.add_zero, Nat.mod_eq_of_lt hi]
  congr 1
  apply List.map_congr_left
  intro s _
  simp only [Function.comp, Nat.succ_eq_add_one]
  exact off_succ hi s

/-- The slots a scan examines when it stops `u` steps from its start. -/
theorem visited_spec (stop : HASH_NODE K V → Bool) (b : Nat → HASH_NODE K V) {cap : Nat} :
    ∀ (fuel i u : Nat), i < cap → u < fuel → stop (b ((i + u) % cap)) = true →
      (∀ s, s < u → stop (b ((i + s) % cap)) = false) →
      visited stop b cap fuel i = offsets i cap (u + 1) := by
  intro fuel
  induction fuel with
  | zero => intro i u _ h; omega
  | succ n ih =>
    intro i u hi hu hstop hbefore
    simp only [visited]
    cases u with
    | zero =>
      simp only [Nat.add_zero, Nat.mod_eq_of_lt hi] at hstop
      rw [if_pos hstop]
      simp [offsets, List.range_succ, Nat.mod_eq_of_lt hi]
    | succ u =>
      have h0 := hbefore 0 (by omega)
      simp only [Nat.add_zero, Nat.mod_eq_of_lt hi] at h0
      rw [if_neg (by simp [h0])]
      rw [ih (next cap i) u (next_lt (by omega) i) (by omega)
        (by rw [off_succ hi]; exact hstop)
        (by intro s hs; rw [off_succ hi]; exact hbefore (s + 1) (by omega))]
      exact offsets_succ_cons hi (u + 1)

theorem countVisited_eq (b : Nat → HASH_NODE K V) (cap : Nat) :
    ∀ fuel i, countVisited b cap fuel i = visited stopEmpty b cap fuel i := by
  intro fuel
  induction fuel with
  | zero => intro i; rfl
  | succ n ih =>
    intro i
    simp only [countVisited, visited, stopEmpty, decide_eq_true_eq, ih]

theorem offsets_nodup (h C n : Nat) (hn : n ≤ C) : (offsets h C n).Nodup := by
  unfold offsets
  apply List.Nodup.map_on _ (List.nodup_range n)
  intro s hs t ht heq
  exact off_inj (by have := List.mem_range.mp hs; omega)
    (by have := List.mem_range.mp ht; omega) heq

theorem offsets_length (h C n : Nat) : (offsets h C n).length = n := by
  simp [offsets]

/-- A scan on a table with an empty slot, for a loop test that holds on empty slots: it stops
at some step `u < C`, having examined the slots `(i + s) mod C`, `s = 0 .. u`, whatever the
step budget from `C` on. -/
theorem scan_stops (stop : HASH_NODE K V → Bool) (b : Nat → HASH_NODE K V) {cap : Nat}
    (i x : Nat) (hi : i < cap) (hx : x < cap) (hstop : stop (b x) = true) :
    ∃ u, u < cap ∧ ∀ fuel, cap ≤ fuel →
      visited stop b cap fuel i = offsets i cap (u + 1) ∧
      probe stop b cap fuel i = some ((i + u) % cap) := by
  obtain ⟨u, hule, hu, hbefore, _⟩ := probe_of_hit stop b cap i ((x + cap - i) % cap) hi
    (Nat.mod_lt _ (by omega)) (by rw [off_inv hi hx]; exact hstop)
  have hult : u < cap := lt_of_le_of_lt hule (Nat.mod_lt _ (by omega))
  refine ⟨u, hult, ?_⟩
  intro fuel hf
  exact ⟨visited_spec stop b fuel i u hi (by omega) hu hbefore,
    probe_of_first stop b fuel i u hi (by omega) hu hbefore⟩

theorem growthCheck_returns (hash : K → Nat) (m : HASH_MAP K V) :
    ∃ m2, growthCheck hash m = some m2 := by
  unfold growthCheck
  split
  · obtain ⟨m2, hm2, _⟩ := rehash_total hash m
    exact ⟨m2, hm2⟩
  · exact ⟨m, rfl⟩

/-- C17 (probing terminates when an empty slot exists): on a map with capacity `C > 0` and an
empty slot, with `h = hash(k) mod C < C`: the scan of `contains`, `find`, `insert_or_assign`
and `at` and the scan of `insert` and `count` each stop after examining `u + 1 <= C` slots,
namely `(h + i) mod C` for `i = 0 .. u` in this order, under every step budget from `C` on;
these slots are pairwise distinct, and `count`, `contains`, `find`, `insert_or_assign` and
`insert` return. -/
theorem C17_probing_terminates (hash : K → Nat) (m : HASH_MAP K V) (k : K)
    (hpos : 0 < m._bucket_count) (he : HasEmpty m) :
    getStart hash m k < m._bucket_count ∧
    (∃ u, u < m._bucket_count ∧ ∀ fuel, m._bucket_count ≤ fuel →
      visited (stopEmptyOrKey k) m.buckets m._bucket_count fuel (getStart hash m k)
        = offsets (getStart hash m k) m._bucket_count (u + 1) ∧
      probe (stopEmptyOrKey k) m.buckets m._bucket_count fuel (getStart hash m k)
        = some ((getStart hash m k + u) % m._bucket_count)) ∧
    (∃ d, d < m._bucket_count ∧ ∀ fuel, m._bucket_count ≤ fuel →
      visited stopEmpty m.buckets m._bucket_count fuel (getStart hash m k)
        = offsets (getStart hash m k) m._bucket_count (d + 1) ∧
      probe stopEmpty m.buckets m._bucket_count fuel (getStart hash m k)
        = some ((getStart hash m k + d) % m._bucket_count) ∧
      countVisited m.buckets m._bucket_count fuel (getStart hash m k)
        = offsets (getStart hash m k) m._bucket_count (d + 1) ∧
      ∃ c, countLoop k m.buckets m._bucket_count fuel (getStart hash m k) 0 = some c) ∧
    (∀ n, n ≤ m._bucket_count →
      (offsets (getStart hash m k) m._bucket_count n).Nodup ∧
      (offsets (getStart hash m k) m._bucket_count n).length = n) ∧
    (∃ c, count hash m k = some c) ∧ (∃ f, contains hash m k = some f) ∧
    (∃ j, find hash m k = some j) ∧ (∀ v, ∃ r, insert_or_assign hash m (k, v) = some r) ∧
    (∀ v, ∃ m2, insert hash m (k, v) = some m2) := by
  have hs := getStart_lt hash m k hpos
  obtain ⟨x, hx, hxe⟩ := he
  obtain ⟨u, hu, hscan⟩ := scan_stops (stopEmptyOrKey k) m.buckets _ x hs hx
    (stopEmptyOrKey_of_empty k _ hxe)
  obtain ⟨d, hd, hscan2⟩ := scan_stops stopEmpty m.buckets _ x hs hx
    (by simp [stopEmpty, hxe])
  obtain ⟨d2, hd2, hde, hdbefore⟩ := first_empty_offset m.buckets _ x hs hx hxe
  have hp := (hscan _ (le_refl _)).2
  refine ⟨hs, ⟨u, hu, hscan⟩, ⟨d, hd, ?_⟩, ?_, ?_, ?_, ?_, ?_, ?_⟩
  · intro fuel hf
    refine ⟨(hscan2 fuel hf).1, (hscan2 fuel hf).2, ?_, ?_⟩
    · rw [countVisited_eq]; exact (hscan2 fuel hf).1
    · exact ⟨_, countLoop_spec k m.buckets fuel _ 0 d2 hs (by omega) hde hdbefore⟩
  · intro n hn
    exact ⟨offsets_nodup _ _ n hn, offsets_length _ _ n⟩
  · exact ⟨_, countLoop_spec k m.buckets _ _ 0 d2 hs hd2 hde hdbefore⟩
  · simp only [contains, hp, Option.map_some']
    exact ⟨_, rfl⟩
  · simp only [find, hp, Option.map_some']
    exact ⟨_, rfl⟩
  · intro v
    exact ⟨_, insert_or_assign_eq hash m k v _ hp⟩
  · intro v
    obtain ⟨j, _, _, _, hins⟩ := insert_eq hash m (k, v) ⟨x, hx, hxe⟩
    obtain ⟨m2, hm2⟩ := growthCheck_returns hash
      ⟨m._bucket_count, m.array_size + 1, Function.update m.buckets j ⟨k, v⟩⟩
    exact ⟨m2, by rw [hins]; exact hm2⟩

/-- Witness for C17 on the map holding the single entry `(7, 3)`. -/
theorem C17_probing_terminates_witness :
    0 < oneEntry._bucket_count ∧ HasEmpty oneEntry ∧
    (getStart id oneEntry 7 < oneEntry._bucket_count ∧
    (∃ u, u < oneEntry._bucket_count ∧ ∀ fuel, oneEntry._bucket_count ≤ fuel →
      visited (stopEmptyOrKey 7) oneEntry.buckets oneEntry._bucket_count fuel
          (getStart id oneEntry 7)
        = offsets (getStart id oneEntry 7) oneEntry._bucket_count (u + 1) ∧
      probe (stopEmptyOrKey 7) oneEntry.buckets oneEntry._bucket_count fuel
          (getStart id oneEntry 7)
        = some ((getStart id oneEntry 7 + u) % oneEntry._bucket_count)) ∧
    (∃ d, d < oneEntry._bucket_count ∧ ∀ fuel, oneEntry._bucket_count ≤ fuel →
      visited stopEmpty oneEntry.buckets oneEntry._bucket_count fuel (getStart id oneEntry 7)
        = offsets (getStart id oneEntry 7) oneEntry._bucket_count (d + 1) ∧
      probe stopEmpty oneEntry.buckets oneEntry._bucket_count fuel (getStart id oneEntry 7)
        = some ((getStart id oneEntry 7 + d) % oneEntry._bucket_count) ∧
      countVisited oneEntry.buckets oneEntry._bucket_count fuel (getStart id oneEntry 7)
        = offsets (getStart id oneEntry 7) oneEntry._bucket_count (d + 1) ∧
      ∃ c, countLoop 7 oneEntry.buckets oneEntry._bucket_count fuel
        (getStart id oneEntry 7) 0 = some c) ∧
    (∀ n, n ≤ oneEntry._bucket_count →
      (offsets (getStart id oneEntry 7) oneEntry._bucket_count n).Nodup ∧
      (offsets (getStart id oneEntry 7) oneEntry._bucket_count n).length = n) ∧
    (∃ c, count id oneEntry 7 = some c) ∧ (∃ f, contains id oneEntry 7 = some f) ∧
    (∃ j, find id oneEntry 7 = some j) ∧
    (∀ v, ∃ r, insert_or_assign id oneEntry (7, v) = some r) ∧
    (∀ v, ∃ m2, insert id oneEntry (7, v) = some m2)) :=
  ⟨by decide, ⟨0, by decide, by decide⟩,
    C17_probing_terminates id oneEntry 7 (by decide) ⟨0, by decide, by decide⟩⟩

/-! ## The full table -/

/-- C18 (full-table non-termination): in a map with capacity `C > 0` in which every slot is
occupied, the scans of `count(k)` and `insert((k, v))` stop under no step budget, so these
calls do not return, for any key `k`; and for a key `k` held by no slot the scan of
`contains(k)`, `find(k)`, `at(k)` and `insert_or_assign((k, v))` stops under no step budget,
so these calls do not return either. -/
theorem C18_full_table_never_returns (hash : K → Nat) (m : HASH_MAP K V) (k : K)
    (hpos : 0 < m._bucket_count)
    (hfull : ∀ i, i < m._bucket_count → (m.buckets i).first ≠ default) :
    (∀ fuel, countLoop k m.buckets m._bucket_count fuel (getStart hash m k) 0 = none) ∧
    (∀ fuel, probe stopEmpty m.buckets m._bucket_count fuel (getStart hash m k) = none) ∧
    count hash m k = none ∧ (∀ v, insert hash m (k, v) = none) ∧
    ((∀ i, i < m._bucket_count → (m.buckets i).first ≠ k) →
      (∀ fuel, probe (stopEmptyOrKey k) m.buckets m._bucket_count fuel (getStart hash m k)
        = none) ∧
      contains hash m k = none ∧ find hash m k = none ∧
      (∀ v, insert_or_assign hash m (k, v) = none) ∧
      (∀ n, atFuel hash n m k = none)) := by
  have hs := getStart_lt hash m k hpos
  have h1 : ∀ fuel, countLoop k m.buckets m._bucket_count fuel (getStart hash m k) 0 = none :=
    fun fuel => countLoop_none_of_full k m.buckets hfull fuel _ 0 hs
  have h2 : ∀ fuel, probe stopEmpty m.buckets m._bucket_count fuel (getStart hash m k) = none :=
    fun fuel => probe_none_of_no_hit stopEmpty m.buckets
      (fun x hx => by simpa [stopEmpty] using hfull x hx) fuel _ hs
  refine ⟨h1, h2, h1 _, ?_, ?_⟩
  · intro v
    simp only [insert, h2]
  · intro habs
    have h3 : ∀ fuel, probe (stopEmptyOrKey k) m.buckets m._bucket_count fuel
        (getStart hash m k) = none :=
      fun fuel => probe_none_of_no_hit (stopEmptyOrKey k) m.buckets
        (fun x hx => by simp [stopEmptyOrKey, hfull x hx, habs x hx]) fuel _ hs
    refine ⟨h3, by simp only [contains, h3, Option.map_none'],
      by simp only [find, h3, Option.map_none'], ?_, ?_⟩
    · intro v
      simp only [insert_or_assign, h3]
    · intro n
      cases n with
      | zero => rfl
      | succ n => simp only [atFuel, h3]

theorem fullMap_first (i : Nat) (hi : i < 100) : (fullMap.buckets i).first = 100 + i := by
  simp only [fullMap, shiftTable, if_pos hi]

/-- Witness for C18 on `fullMap` with the key `5`, which no slot holds. -/
theorem C18_full_table_never_returns_witness :
    0 < fullMap._bucket_count ∧
    (∀ i, i < fullMap._bucket_count → (fullMap.buckets i).first ≠ default) ∧
    ((∀ fuel, countLoop 5 fullMap.buckets fullMap._bucket_count fuel (getStart id fullMap 5) 0
        = none) ∧
    (∀ fuel, probe stopEmpty fullMap.buckets fullMap._bucket_count fuel (getStart id fullMap 5)
      = none) ∧
    count id fullMap 5 = none ∧ (∀ v, insert id fullMap (5, v) = none) ∧
    ((∀ i, i < fullMap._bucket_count → (fullMap.buckets i).first ≠ 5) →
      (∀ fuel, probe (stopEmptyOrKey 5) fullMap.buckets fullMap._bucket_count fuel
        (getStart id fullMap 5) = none) ∧
      contains id fullMap 5 = none ∧ find id fullMap 5 = none ∧
      (∀ v, insert_or_assign id fullMap (5, v) = none) ∧
      (∀ n, atFuel id n fullMap 5 = none))) :=
  ⟨by decide,
    fun i hi => by rw [fullMap_first i hi]; show 100 + i ≠ 0; omega,
    C18_full_table_never_returns id fullMap 5 (by decide)
      (fun i hi => by rw [fullMap_first i hi]; show 100 + i ≠ 0; omega)⟩

/-! ## Move construction and move assignment -/

/-- On a freshly constructed map `insert((k, v))` with a non-default key returns a map of size
1 in which `find(k)` returns a slot holding `(k, v)`. -/
theorem insert_new (hash : K → Nat) (k : K) (v : V) (hk : k ≠ default) :
    ∃ m2 j, insert hash (HASH_MAP.new : HASH_MAP K V) (k, v) = some m2 ∧ m2.size = 1 ∧
      contains hash m2 k = some true ∧ find hash m2 k = some j ∧ j ≠ m2._bucket_count ∧
      (m2.buckets j).first = k ∧ (m2.buckets j).second = v ∧ findValue hash m2 k = some v := by
  have hs : hash k % 100 < 100 := Nat.mod_lt _ (by omega)
  have hp : probe stopEmpty (newArray : Nat → HASH_NODE K V) 100 100 (hash k % 100)
      = some (hash k % 100) :=
    probe_now _ _ _ _ _ (by omega) (by simp [stopEmpty, newArray, HASH_NODE.blank])
  have hins : insert hash (HASH_MAP.new : HASH_MAP K V) (k, v)
      = some ⟨100, 1, Function.update newArray (hash k % 100) ⟨k, v⟩⟩ := by
    simp only [insert, HASH_MAP.new, getStart, hp, growthCheck, loadExceeded]
    rw [if_neg (by simp)]
  have hp2 : probe (stopEmptyOrKey k)
      (Function.update (newArray : Nat → HASH_NODE K V) (hash k % 100) ⟨k, v⟩) 100 100
      (hash k % 100) = some (hash k % 100) :=
    probe_now _ _ _ _ _ (by omega) (stopEmptyOrKey_of_key k _ (by simp))
  refine ⟨_, hash k % 100, hins, rfl, ?_, ?_, Nat.ne_of_lt hs, by simp, by simp, ?_⟩
  · simp only [contains, getStart, hp2, Option.map_some', Function.update_same]
    simp [hk]
  · simp only [find, getStart, hp2, Option.map_some', Function.update_same, if_neg hk]
  · simp only [findValue, find, getStart, hp2, Option.map_some', Function.update_same,
      if_neg hk]

/-- C14 (move leaves the source usable): after move construction or move assignment from
`src`, the destination has the former capacity, size and slots of `src`, and `src` is left
with `size() == 0`, `empty() == true`, capacity 100 and every slot empty; a following
`src.insert((k, v))` with `k` not the default key returns and gives `src.size() == 1`,
`src.contains(k) == true` and `find(k)` holding `v`. -/
theorem C14_move_leaves_source_usable (hash : K → Nat) (self src : HASH_MAP K V) (k : K)
    (v : V) (hk : k ≠ default) :
    (moveConstruct src).1 = src ∧ (moveAssign self src).1 = src ∧
    (moveAssign self src).2 = (moveConstruct src).2 ∧
    (moveConstruct src).2.size = 0 ∧ (moveConstruct src).2.empty = true ∧
    (moveConstruct src).2.bucket_count = 100 ∧
    (∀ i, ((moveConstruct src).2.buckets i).first = default) ∧
    ∃ m2 j, insert hash (moveConstruct src).2 (k, v) = some m2 ∧ m2.size = 1 ∧
      contains hash m2 k = some true ∧ find hash m2 k = some j ∧ j ≠ m2._bucket_count ∧
      (m2.buckets j).first = k ∧ (m2.buckets j).second = v ∧ findValue hash m2 k = some v :=
  ⟨rfl, rfl, rfl, rfl, rfl, rfl, fun _ => rfl, insert_new hash k v hk⟩

/-- Witness for C14: moving from `dupWrap` and inserting `(7, 3)` into the moved-from map. -/
theorem C14_move_leaves_source_usable_witness :
    (7 : Nat) ≠ default ∧
    ((moveConstruct dupWrap).1 = dupWrap ∧ (moveAssign oneEntry dupWrap).1 = dupWrap ∧
    (moveAssign oneEntry dupWrap).2 = (moveConstruct dupWrap).2 ∧
    (moveConstruct dupWrap).2.size = 0 ∧ (moveConstruct dupWrap).2.empty = true ∧
    (moveConstruct dupWrap).2.bucket_count = 100 ∧
    (∀ i, ((moveConstruct dupWrap).2.buckets i).first = default) ∧
    ∃ m2 j, insert id (moveConstruct dupWrap).2 (7, 3) = some m2 ∧ m2.size = 1 ∧
      contains id m2 7 = some true ∧ find id m2 7 = some j ∧ j ≠ m2._bucket_count ∧
      (m2.buckets j).first = 7 ∧ (m2.buckets j).second = 3 ∧ findValue id m2 7 = some 3) :=
  ⟨by decide, C14_move_leaves_source_usable id oneEntry dupWrap 7 3 (by decide)⟩

/-! ## `rehash` by doubling as a rebuild -/

theorem entries_succ (b : Nat → HASH_NODE K V) (n : Nat) :
    entries b (n + 1) = entries b n ++ (if (b n).first ≠ default then [b n] else []) := by
  unfold entries
  rw [List.range_succ, List.map_append, List.filter_append]
  congr 1
  by_cases h : (b n).first = default <;> simp [h]

theorem entries_update_of_le (b : Nat → HASH_NODE K V) {n j : Nat} (h : n ≤ j)
    (nd : HASH_NODE K V) : entries (Function.update b j nd) n = entries b n := by
  unfold entries
  congr 1
  apply List.map_congr_left
  intro i hi
  have : i ≠ j := by have := List.mem_range.mp hi; omega
  rw [Function.update_noteq this]

/-- Filling an empty slot adds exactly the written node to the occupied slots. -/
theorem entries_update (b : Nat → HASH_NODE K V) (nd : HASH_NODE K V) (j : Nat)
    (hje : (b j).first = default) (hnd : nd.first ≠ default) :
    ∀ n, j < n → (entries (Function.update b j nd) n).Perm (nd :: entries b n) := by
  intro n
  induction n with
  | zero => intro h; omega
  | succ n ih =>
    intro hj
    rw [entries_succ, entries_succ]
    rcases Nat.lt_or_eq_of_le (Nat.lt_succ_iff.mp hj) with hlt | heq
    · have hne : n ≠ j := by omega
      rw [Function.update_noteq hne]
      exact (ih hlt).append_right _
    · subst heq
      rw [entries_update_of_le b (le_refl _) nd, Function.update_same, if_pos hnd,
        if_neg (by simp [hje]), List.append_nil]
      exact List.perm_append_singleton nd _

theorem reinsert_placed (hash : K → Nat) (cap : Nat) (t t2 : Nat → HASH_NODE K V)
    (nd : HASH_NODE K V) (hpos : 0 < cap) (hnd : nd.first ≠ default)
    (h : reinsert hash cap t nd = some t2) : PlacedFirstEmpty hash cap t nd t2 := by
  unfold reinsert at h
  rw [if_neg hnd] at h
  cases hp : probe stopEmpty t cap cap (hash nd.first % cap) with
  | none => rw [hp] at h; cases h
  | some j =>
    rw [hp, Option.map_some'] at h
    cases h
    obtain ⟨u, hu, hju, hstop, hbefore⟩ := probe_eq_some _ _ _ _ _ (Nat.mod_lt _ hpos) hp
    subst hju
    exact ⟨u, hu, by simpa [stopEmpty] using hstop,
      fun s hs => by simpa [stopEmpty] using hbefore s hs, rfl⟩

/-- The rebuild loop of `rehash` is the rebuild of the description, and keeps the occupied
slots as a multiset. -/
theorem rehashLoop_faithful (hash : K → Nat) (old : Nat → HASH_NODE K V) (newCap : Nat) :
    ∀ n, n ≤ newCap → ∃ t, rehashLoop hash old newCap n newArray = some t ∧
      RebuildInv hash old newCap n t ∧ RebuiltFrom hash old newCap n t ∧
      (entries t newCap).Perm (entries old n) := by
  intro n
  induction n with
  | zero =>
    intro _
    refine ⟨newArray, rfl, rebuildInv_zero hash old newCap, RebuiltFrom.start, ?_⟩
    have h0 : entries (newArray : Nat → HASH_NODE K V) newCap = [] := by
      unfold entries
      rw [List.filter_eq_nil_iff]
      intro nd hnd
      obtain ⟨i, _, rfl⟩ := List.mem_map.mp hnd
      simp [newArray, HASH_NODE.blank]
    rw [h0]; exact List.Perm.refl _
  | succ n ih =>
    intro hn
    obtain ⟨t, ht, hinv, hreb, hperm⟩ := ih (by omega)
    obtain ⟨t2, ht2, hinv2⟩ := rebuildInv_step hash old newCap n t (by omega) hinv
    refine ⟨t2, by simp only [rehashLoop, ht, Option.some_bind, ht2], hinv2, ?_, ?_⟩
    · by_cases hkey : (old n).first = default
      · have : t2 = t := by
          simp only [reinsert, if_pos hkey] at ht2
          cases ht2; rfl
        rw [this]
        exact RebuiltFrom.skip n t hreb hkey
      · exact RebuiltFrom.place n t t2 hreb hkey
          (reinsert_placed hash newCap t t2 (old n) (by omega) hkey ht2)
    · rw [entries_succ]
      by_cases hkey : (old n).first = default
      · have : t2 = t := by
          simp only [reinsert, if_pos hkey] at ht2
          cases ht2; rfl
        rw [this, if_neg (by simp [hkey]), List.append_nil]
        exact hperm
      · obtain ⟨u, hu, hempty, _, hdef⟩ :=
          reinsert_placed hash newCap t t2 (old n) (by omega) hkey ht2
        rw [hdef, if_pos hkey]
        have h1 := entries_update t (old n) _ hempty hkey newCap (Nat.mod_lt _ (by omega))
        exact h1.trans ((List.Perm.cons _ hperm).trans (List.perm_append_singleton _ _).symm)

/-- C19 (rehash by doubling is a faithful rebuild): for a map with capacity `C`, `2 * C` below
the maximum, `rehash()` returns a map of capacity `2 * C` with `size()` unchanged whose
occupied slots are, as a multiset of (key, value) pairs, those of the old table; the new table
is built from an empty one by placing each occupied old slot, in address order, in the first
empty slot in probe order from `hash(key) mod 2 * C`. -/
theorem C19_rehash_doubling_faithful (hash : K → Nat) (m : HASH_MAP K V)
    (hdouble : m._bucket_count * 2 < _max_bucket_count) :
    ∃ m2, rehash hash m = some m2 ∧ m2.bucket_count = 2 * m._bucket_count ∧
      m2.size = m.size ∧
      (↑(entries m2.buckets m2._bucket_count) : Multiset (HASH_NODE K V))
        = ↑(entries m.buckets m._bucket_count) ∧
      occupied m2.buckets m2._bucket_count = occupied m.buckets m._bucket_count ∧
      RebuiltFrom hash m.buckets (2 * m._bucket_count) m._bucket_count m2.buckets := by
  have hne : m._bucket_count ≠ _max_bucket_count := by
    intro h; rw [h] at hdouble; omega
  obtain ⟨t, ht, hinv, hreb, hperm⟩ := rehashLoop_faithful hash m.buckets
    (m._bucket_count * 2) m._bucket_count (by omega)
  have hr : rehash hash m = some ⟨m._bucket_count * 2, m.array_size, t⟩ := by
    simp only [rehash, if_neg hne, grownCount_of_double hdouble,
      Nat.mul_div_cancel _ (by norm_num : 0 < 2), ht, Option.map_some']
  refine ⟨_, hr, by simp only [HASH_MAP.bucket_count]; omega, rfl,
    Multiset.coe_eq_coe.mpr hperm, hinv.2.1, ?_⟩
  rw [Nat.mul_comm 2]
  exact hreb

/-- Witness for C19 on `dupWrap` (key `99` stored twice, in slots `99` and `0`). -/
theorem C19_rehash_doubling_faithful_witness :
    dupWrap._bucket_count * 2 < _max_bucket_count ∧
    ∃ m2, rehash id dupWrap = some m2 ∧ m2.bucket_count = 2 * dupWrap._bucket_count ∧
      m2.size = dupWrap.size ∧
      (↑(entries m2.buckets m2._bucket_count) : Multiset (HASH_NODE Nat Nat))
        = ↑(entries dupWrap.buckets dupWrap._bucket_count) ∧
      occupied m2.buckets m2._bucket_count = occupied dupWrap.buckets dupWrap._bucket_count ∧
      RebuiltFrom id dupWrap.buckets (2 * dupWrap._bucket_count) dupWrap._bucket_count
        m2.buckets :=
  ⟨by decide, C19_rehash_doubling_faithful id dupWrap (by decide)⟩

/-! ## The probe-chain property of reachable maps -/

/-- Writing a node with a non-default key to the empty slot at which a scan from the start
index of that key stopped keeps the probe-chain property. -/
theorem Chain.update_stop {hash : K → Nat} {b : Nat → HASH_NODE K V} {cap j : Nat}
    (hc : Chain hash b cap) (stop : HASH_NODE K V → Bool) (nd : HASH_NODE K V)
    (hnd : nd.first ≠ default) (hpos : 0 < cap)
    (hstop : ∀ n : HASH_NODE K V, stop n = false → n.first ≠ default)
    (hj : probe stop b cap cap (hash nd.first % cap) = some j)
    (hje : (b j).first = default) :
    Chain hash (Function.update b j nd) cap := by
  have hs : hash nd.first % cap < cap := Nat.mod_lt _ hpos
  intro x hx hxo
  by_cases hxj : x = j
  · subst hxj
    simp only [Function.update_same] at hxo ⊢
    exact reachable_of_probe stop b _ _ nd hs hj hstop hnd
  · rw [Function.update_noteq hxj] at hxo ⊢
    exact reachable_update_empty (hc x hx hxo) hje nd

/-- The probe-chain property depends only on the keys of the slots. -/
theorem Chain.of_same_keys {hash : K → Nat} {b b2 : Nat → HASH_NODE K V} {cap : Nat}
    (hc : Chain hash b cap) (hkeys : ∀ x, (b2 x).first = (b x).first) :
    Chain hash b2 cap := by
  intro x hx hxo
  rw [hkeys x] at hxo ⊢
  obtain ⟨t, ht, hxt, hocc⟩ := hc x hx hxo
  exact ⟨t, ht, hxt, fun s hs => by rw [hkeys]; exact hocc s hs⟩

theorem pos_of_probe (stop : HASH_NODE K V → Bool) (b : Nat → HASH_NODE K V) {cap i j : Nat}
    (h : probe stop b cap cap i = some j) : 0 < cap := by
  by_contra h0
  have : cap = 0 := by omega
  subst this
  simp [probe] at h

/-- The growth check keeps the probe-chain property: a rebuilt table has it. -/
theorem growthCheck_chain (hash : K → Nat) (m m2 : HASH_MAP K V)
    (hc : Chain hash m.buckets m._bucket_count) (hpos : 0 < m._bucket_count)
    (h : growthCheck hash m = some m2) :
    Chain hash m2.buckets m2._bucket_count ∧ 0 < m2._bucket_count := by
  unfold growthCheck at h
  by_cases hgrow : loadExceeded m = true
  · rw [if_pos hgrow] at h
    by_cases hmax : m._bucket_count = _max_bucket_count
    · rw [rehash_of_max hash m hmax] at h
      cases h; exact ⟨hc, hpos⟩
    · obtain ⟨t, ht, hinv⟩ := rehash_spec hash m hmax
      rw [ht] at h
      cases h
      exact ⟨hinv.1, lt_of_lt_of_le hpos (grownCount_ge _)⟩
  · rw [if_neg hgrow] at h
    cases h; exact ⟨hc, hpos⟩

theorem insert_chain (hash : K → Nat) (m m2 : HASH_MAP K V) (p : K × V)
    (hc : Chain hash m.buckets m._bucket_count) (hp : p.1 ≠ default)
    (h : insert hash m p = some m2) :
    Chain hash m2.buckets m2._bucket_count ∧ 0 < m2._bucket_count := by
  unfold insert at h
  cases hj : probe stopEmpty m.buckets m._bucket_count m._bucket_count
      (getStart hash m p.1) with
  | none => rw [hj] at h; cases h
  | some j =>
    rw [hj] at h
    simp only at h
    have hpos := pos_of_probe _ _ hj
    exact growthCheck_chain hash
      ⟨m._bucket_count, m.array_size + 1, Function.update m.buckets j ⟨p.1, p.2⟩⟩ m2
      (hc.update_probe ⟨p.1, p.2⟩ hp hpos hj) hpos h

theorem insert_or_assign_chain (hash : K → Nat) (m : HASH_MAP K V) (p : K × V)
    (r : HASH_MAP K V × Nat × Bool)
    (hc : Chain hash m.buckets m._bucket_count) (hp : p.1 ≠ default)
    (h : insert_or_assign hash m p = some r) :
    Chain hash r.1.buckets r.1._bucket_count ∧ 0 < r.1._bucket_count := by
  unfold insert_or_assign at h
  cases hj : probe (stopEmptyOrKey p.1) m.buckets m._bucket_count m._bucket_count
      (getStart hash m p.1) with
  | none => rw [hj] at h; cases h
  | some j =>
    rw [hj] at h
    cases h
    have hpos := pos_of_probe _ _ hj
    refine ⟨?_, hpos⟩
    by_cases hk : (m.buckets j).first = p.1
    · apply hc.of_same_keys
      intro x
      by_cases hxj : x = j
      · subst hxj; simp [hk]
      · simp [Function.update_noteq hxj]
    · exact hc.update_stop (stopEmptyOrKey p.1) ⟨p.1, p.2⟩ hp hpos
        (fun n hn => (stopEmptyOrKey_false p.1 n hn).1) hj
        (empty_of_miss p.1 m.buckets (getStart_lt hash m p.1 hpos) hj hk)

theorem atFuel_chain (hash : K → Nat) (k : K) (hk : k ≠ default) :
    ∀ (n : Nat) (m : HASH_MAP K V) (r : HASH_MAP K V × Nat),
      Chain hash m.buckets m._bucket_count → atFuel hash n m k = some r →
      Chain hash r.1.buckets r.1._bucket_count ∧ 0 < r.1._bucket_count := by
  intro n
  induction n with
  | zero => intro m r _ h; simp [atFuel] at h
  | succ n ih =>
    intro m r hc h
    cases hp : probe (stopEmptyOrKey k) m.buckets m._bucket_count m._bucket_count
        (getStart hash m k) with
    | none => simp [atFuel, hp] at h
    | some j =>
      have hpos := pos_of_probe _ _ hp
      by_cases hjk : (m.buckets j).first = k
      · rw [atFuel_hit hash n m k j hp hjk] at h
        cases h
        exact ⟨hc, hpos⟩
      · rw [atFuel_miss hash n m k j hp hjk] at h
        cases hg : growthCheck hash ⟨m._bucket_count, m.array_size + 1,
            Function.update m.buckets j ⟨k, (m.buckets j).second⟩⟩ with
        | none => rw [hg] at h; cases h
        | some m2 =>
          rw [hg, Option.some_bind] at h
          have hc1 : Chain hash (Function.update m.buckets j ⟨k, (m.buckets j).second⟩)
              m._bucket_count :=
            hc.update_stop (stopEmptyOrKey k) ⟨k, (m.buckets j).second⟩ hk hpos
              (fun nd hn => (stopEmptyOrKey_false k nd hn).1) hp
              (empty_of_miss k m.buckets (getStart_lt hash m k hpos) hp hjk)
          obtain ⟨hc2, _⟩ := growthCheck_chain hash
            ⟨m._bucket_count, m.array_size + 1,
              Function.update m.buckets j ⟨k, (m.buckets j).second⟩⟩ m2 hc1 hpos hg
          exact ih m2 r hc2 h

/-- Every reachable map has the probe-chain property. -/
theorem reach_chain (hash : K → Nat) (m : HASH_MAP K V) (hr : Reach hash m) :
    Chain hash m.buckets m._bucket_count ∧ 0 < m._bucket_count := by
  induction hr with
  | fresh =>
    exact ⟨(rebuildInv_zero hash (newArray : Nat → HASH_NODE K V) 100).1,
      show 0 < 100 by omega⟩
  | byInsert m m2 p _ hp h _ ih => exact insert_chain hash m m2 p ih.1 hp h
  | byInsertOrAssign m p r _ hp h _ ih => exact insert_or_assign_chain hash m p r ih.1 hp h
  | byAt m k n r _ hk h _ ih => exact atFuel_chain hash k hk n m r ih.1 h

/-- In a reachable map with an empty slot, `count(k)` for a non-default key is the number of
slots of the whole table that hold `k`. -/
theorem reach_count (hash : K → Nat) (m : HASH_MAP K V) (hr : Reach hash m) (he : HasEmpty m)
    (k : K) (hk : k ≠ default) :
    count hash m k = some (slotsWith m.buckets m._bucket_count k) := by
  apply count_eq_slotsWith hash m k he
  intro x hx hxk
  have := (reach_chain hash m hr).1 x hx (by rw [hxk]; exact hk)
  rwa [hxk] at this

theorem insert_or_assign_shift (n : Nat) (hn : n < 100) :
    insert_or_assign id (⟨100, n, shiftTable n⟩ : HASH_MAP Nat Nat) (100 + n, 0)
      = some (⟨100, n + 1, shiftTable (n + 1)⟩, n, true) := by
  have hstart : getStart id (⟨100, n, shiftTable n⟩ : HASH_MAP Nat Nat) (100 + n) = n := by
    show (100 + n) % 100 = n
    omega
  have hempty : (shiftTable n n).first = default := by
    simp only [shiftTable]
    rw [if_neg (by omega)]; rfl
  have hp : probe (stopEmptyOrKey (100 + n)) (shiftTable n) 100 100
      (getStart id (⟨100, n, shiftTable n⟩ : HASH_MAP Nat Nat) (100 + n)) = some n := by
    rw [hstart]
    exact probe_now _ _ _ _ _ (by omega) (stopEmptyOrKey_of_empty _ _ hempty)
  rw [insert_or_assign_eq id (⟨100, n, shiftTable n⟩ : HASH_MAP Nat Nat) (100 + n) 0 n hp]
  simp only [shiftTable_succ, hempty, decide_True]

/-- The maps built by `insert_or_assign((100 + i, 0))`, `i = 0 .. n-1`, are reachable. -/
theorem reach_shift : ∀ n, n ≤ 100 → Reach id (⟨100, n, shiftTable n⟩ : HASH_MAP Nat Nat) := by
  intro n
  induction n with
  | zero =>
    intro _
    have h0 : shiftTable 0 = newArray := by
      funext i
      simp only [shiftTable, newArray]
      rw [if_neg (by omega)]
    rw [h0]
    exact Reach.fresh
  | succ n ih =>
    intro hn
    exact Reach.byInsertOrAssign _ (100 + n, 0) (⟨100, n + 1, shiftTable (n + 1)⟩, n, true)
      (ih (by omega)) (by show 100 + n ≠ 0; omega) (insert_or_assign_shift n (by omega))
      (show 100 < 10000000 by omega)

/-- C20 fails on `fullMap`.  Every reachable map has the probe-chain property, and with an
empty slot in the map `count(k)` is the number of slots holding `k`.  But `fullMap`, reached
from a fresh map by 100 `insert_or_assign` calls with distinct keys (capacity 100, below the
maximum), has no empty slot, because `insert_or_assign` never runs the growth check: there
one slot holds key `100` and `count(100)` does not return, under any step budget. -/
theorem C20_count_diverges_on_reachable_full_map :
    (∀ m : HASH_MAP Nat Nat, Reach id m →
      Chain id m.buckets m._bucket_count ∧
      (HasEmpty m → ∀ k, k ≠ default →
        count id m k = some (slotsWith m.buckets m._bucket_count k))) ∧
    Reach id fullMap ∧ fullMap._bucket_count < _max_bucket_count ∧
    Chain id fullMap.buckets fullMap._bucket_count ∧
    slotsWith fullMap.buckets fullMap._bucket_count 100 = 1 ∧
    count id fullMap 100 = none ∧
    (∀ fuel, countLoop 100 fullMap.buckets fullMap._bucket_count fuel
      (getStart id fullMap 100) 0 = none) := by
  have hreach : Reach id fullMap := reach_shift 100 (le_refl _)
  have hfull : ∀ i, i < fullMap._bucket_count → (fullMap.buckets i).first ≠ default := by
    intro i hi
    rw [fullMap_first i hi]
    show 100 + i ≠ 0
    omega
  have hdiv : ∀ fuel, countLoop 100 fullMap.buckets fullMap._bucket_count fuel
      (getStart id fullMap 100) 0 = none :=
    fun fuel => countLoop_none_of_full 100 fullMap.buckets hfull fuel _ 0
      (Nat.mod_lt _ (by decide))
  refine ⟨?_, hreach, by decide, (reach_chain id fullMap hreach).1, by decide, hdiv _, hdiv⟩
  intro m hr
  exact ⟨(reach_chain id m hr).1, fun he k hk => reach_count id m hr he k hk⟩

end HashMap
